import Mathlib

/-!
Verification of the URLshutoku crawl-and-verify pipeline.

This file gives a shallow embedding, in Lean 4, of the parts of the
repository that the specification's claims are about:

* `app/crawler/normalize.py` — `normalize_text` (NFKC, half-width kana
  table, whitespace collapse, legacy-glyph replacement, strip, lower);
* `app/crawler/search.py` — `_score_url`, `EXCLUDE_KEYWORDS`,
  `_BLOCKLIST_HOSTS`, and the filter/sort stage of `search_company`;
* `app/crawler/extract.py` — `_match_company_text`, `analyze_page` and
  its regex field extraction;
* `app/services/llm.py` — the `LLMRequest` shape (the file itself does
  not parse as committed, see the section note);
* `app/services/pipeline.py` — `CrawlPipeline._process_company`,
  `CrawlPipeline._verify_candidate`, the batch loop of
  `CrawlPipeline.run`, and the `JobState` counters.

External collaborators (the HTTP layer, the SQL store, the search
backend, the `rapidfuzz` similarity score, `json.loads`, and the LLM
binding) are modelled as explicit inputs, following the spec's own
interface boundaries.  Python's Unicode primitives (`unicodedata.normalize
("NFKC", ·)`, `str.lower`) are modelled by concrete character tables that
agree with CPython on every character appearing in this development
(half-width katakana, ASCII case, the Greek composition pairs used for
the idempotence analysis); the structure of the model — compatibility
decomposition followed by canonical composition of adjacent pairs, and a
character-wise case map — mirrors the structure of the real primitives.

Strings are worked with as `List Char` (the `String.data` view), and the
concurrency of the real pipeline is linearised: every counter mutation in
`_process_company` happens under the single per-job lock, with each pair
of counter increments inside one lock section, so any interleaving of
company tasks produces the same counter arithmetic as the sequential
fold modelled here.
-/

namespace URLshutoku

/-! ## Basic string utilities shared by all components -/

/-- Whitespace set modelling Python's `\s` character class and
`str.strip` on the characters this development manipulates. -/
def isWs (c : Char) : Bool :=
  c = ' ' ∨ c = '\t' ∨ c = '\n' ∨ c = '\r' ∨ c = '\x0b' ∨ c = '\x0c' ∨
  c = ' ' ∨ c = '　'

/-- Decidable Bool-valued infix (substring) test, modelling Python's
`in` operator on strings. -/
def hasInfix (pat : List Char) : List Char → Bool
  | [] => pat.isEmpty
  | c :: cs => pat.isPrefixOf (c :: cs) || hasInfix pat cs

/-- Python's `needle in haystack` for `String`. -/
def containsSub (haystack needle : String) : Bool :=
  hasInfix needle.data haystack.data

/-- Case table for `str.lower`, restricted to the ASCII letters plus the
Greek capital alpha with varia (U+1FBA ↦ U+1F70) used by the
normalisation analysis; CPython's `str.lower` agrees with this table on
every character appearing in this development and fixes all others. -/
def lowerTable : List (Char × Char) :=
  [('A', 'a'), ('B', 'b'), ('C', 'c'), ('D', 'd'), ('E', 'e'), ('F', 'f'),
   ('G', 'g'), ('H', 'h'), ('I', 'i'), ('J', 'j'), ('K', 'k'), ('L', 'l'),
   ('M', 'm'), ('N', 'n'), ('O', 'o'), ('P', 'p'), ('Q', 'q'), ('R', 'r'),
   ('S', 's'), ('T', 't'), ('U', 'u'), ('V', 'v'), ('W', 'w'), ('X', 'x'),
   ('Y', 'y'), ('Z', 'z'), ('Ὰ', 'ὰ')]

/-- Character-wise case map modelling `str.lower`. -/
def lowerChar (c : Char) : Char :=
  (lowerTable.lookup c).getD c

/-- List-level `str.lower`. -/
def lowerL (l : List Char) : List Char :=
  l.map lowerChar

/-- String-level `str.lower`. -/
def lowerS (s : String) : String :=
  ⟨lowerL s.data⟩

/-- Python `str.strip`: drop leading and trailing whitespace. -/
def stripWs (l : List Char) : List Char :=
  ((l.dropWhile isWs).reverse.dropWhile isWs).reverse

/-- Worker for the whitespace collapse: the flag records whether the
previous character was whitespace (so the current run already emitted
its single space). -/
def collapseAux : Bool → List Char → List Char
  | _, [] => []
  | prevWs, c :: cs =>
    if isWs c then
      if prevWs then collapseAux true cs
      else ' ' :: collapseAux true cs
    else c :: collapseAux false cs

/-- Python `re.sub(r"\s+", " ", ·)`: replace every maximal whitespace
run with a single ASCII space. -/
def collapseWs (l : List Char) : List Char :=
  collapseAux false l

theorem lookup_mem {α β : Type} [BEq α] [LawfulBEq α]
    {l : List (α × β)} {a : α} {b : β}
    (h : l.lookup a = some b) : (a, b) ∈ l := by
  induction l with
  | nil => simp [List.lookup] at h
  | cons p rest ih =>
    rw [List.lookup] at h
    split at h
    · next heq =>
      simp only [Option.some.injEq] at h
      have ha : a = p.1 := eq_of_beq heq
      subst h; subst ha
      exact List.mem_cons_self _ _
    · exact List.mem_cons_of_mem _ (ih h)

/-! ## `app/crawler/normalize.py` -/

/-- `KANA_TABLE` of `normalize.py`: half-width katakana to full-width
katakana, exactly the 46 entries of the source. -/
def KANA_TABLE : List (Char × Char) :=
  [('ｱ', 'ア'), ('ｲ', 'イ'), ('ｳ', 'ウ'), ('ｴ', 'エ'), ('ｵ', 'オ'),
   ('ｶ', 'カ'), ('ｷ', 'キ'), ('ｸ', 'ク'), ('ｹ', 'ケ'), ('ｺ', 'コ'),
   ('ｻ', 'サ'), ('ｼ', 'シ'), ('ｽ', 'ス'), ('ｾ', 'セ'), ('ｿ', 'ソ'),
   ('ﾀ', 'タ'), ('ﾁ', 'チ'), ('ﾂ', 'ツ'), ('ﾃ', 'テ'), ('ﾄ', 'ト'),
   ('ﾅ', 'ナ'), ('ﾆ', 'ニ'), ('ﾇ', 'ヌ'), ('ﾈ', 'ネ'), ('ﾉ', 'ノ'),
   ('ﾊ', 'ハ'), ('ﾋ', 'ヒ'), ('ﾌ', 'フ'), ('ﾍ', 'ヘ'), ('ﾎ', 'ホ'),
   ('ﾏ', 'マ'), ('ﾐ', 'ミ'), ('ﾑ', 'ム'), ('ﾒ', 'メ'), ('ﾓ', 'モ'),
   ('ﾔ', 'ヤ'), ('ﾕ', 'ユ'), ('ﾖ', 'ヨ'),
   ('ﾗ', 'ラ'), ('ﾘ', 'リ'), ('ﾙ', 'ル'), ('ﾚ', 'レ'), ('ﾛ', 'ロ'),
   ('ﾜ', 'ワ'), ('ｦ', 'ヲ'), ('ﾝ', 'ン')]

/-- `str.translate(KANA_TABLE)`: character-wise application of the
table. -/
def kanaChar (c : Char) : Char :=
  (KANA_TABLE.lookup c).getD c

/-- List-level translate. -/
def translateKana (l : List Char) : List Char :=
  l.map kanaChar

/-- Compatibility-decomposition table modelling the decomposition phase
of `unicodedata.normalize("NFKC", ·)` on the characters this development
manipulates: half-width katakana (which NFKC also folds to full width,
making the source's later `translate` a no-op on NFKC output), the
ideographic and no-break spaces, and the parenthesised-ideograph
compatibility character U+3231; CPython agrees with this table on these
characters and fixes all others appearing here. -/
def nfkcDecompTable : List (Char × List Char) :=
  (KANA_TABLE.map fun p => (p.1, [p.2])) ++
  [('　', [' ']), (' ', [' ']), ('㈱', ['(', '株', ')'])]

/-- Decomposition phase, character by character. -/
def nfkcDecompChar (c : Char) : List Char :=
  (nfkcDecompTable.lookup c).getD [c]

/-- Canonical-composition pairs modelling the composition phase of NFKC
on the characters of this development: small alpha with varia (U+1F70)
followed by combining ypogegrammeni (U+0345) composes to the
precomposed U+1FB2 — the pair through which `str.lower` output leaves
NFKC form.  The capital U+1FBA followed by U+0345 has no precomposed
form and therefore does not appear. -/
def nfkcCompTable : List ((Char × Char) × Char) :=
  [(('ὰ', 'ͅ'), 'ᾲ')]

/-- Lookup of a composable adjacent pair. -/
def compPair (a b : Char) : Option Char :=
  (nfkcCompTable.lookup (a, b))

/-- Worker for the composition phase: `a` is the pending character, to
be composed with the head of the remainder when the pair is canonical;
a freshly composed character may compose again with the following
one. -/
def composeAux (a : Char) : List Char → List Char
  | [] => [a]
  | b :: rest =>
    match compPair a b with
    | some d => composeAux d rest
    | none => a :: composeAux b rest

/-- Composition phase: repeatedly compose adjacent pairs, left to
right. -/
def composePass : List Char → List Char
  | [] => []
  | a :: rest => composeAux a rest

/-- Model of `unicodedata.normalize("NFKC", ·)`: compatibility
decomposition followed by canonical composition. -/
def nfkcModel (l : List Char) : List Char :=
  composePass (l.flatMap nfkcDecompChar)

/-- Pattern of the legacy-glyph substitution: `"株式會社"`. -/
def kyuPat : List Char := ['株', '式', '會', '社']

/-- Replacement of the legacy-glyph substitution: `"株式会社"`. -/
def kyuRepl : List Char := ['株', '式', '会', '社']

/-- Python `value.replace("株式會社", "株式会社")`: left-to-right,
non-overlapping replacement of every occurrence. -/
def replaceKyu : List Char → List Char
  | '株' :: '式' :: '會' :: '社' :: rest => '株' :: '式' :: '会' :: '社' :: replaceKyu rest
  | c :: cs => c :: replaceKyu cs
  | [] => []

/-- `normalize_text` of `normalize.py`, at the `List Char` level: NFKC,
kana translate, whitespace collapse, legacy-glyph replacement, strip,
lower — in the source's order. -/
def normalizeTextL (l : List Char) : List Char :=
  lowerL (stripWs (replaceKyu (collapseWs (translateKana (nfkcModel l)))))

/-- `normalize_text` of `normalize.py` on `String`. -/
def normalize_text (s : String) : String :=
  ⟨normalizeTextL s.data⟩

/-- Behaviour of `normalize_text` when handed Python's `None` instead
of a string (as `extract._match_company_text` does for an absent
address): `unicodedata.normalize("NFKC", None)` raises `TypeError`, so
the call fails instead of returning a value.  `none` models the raised
exception; `some` models normal return. -/
def normalizeTextPy : Option String → Option String
  | none => none
  | some s => some (normalize_text s)

/-! ## `app/crawler/search.py` -/

/-- `_BLOCKLIST_HOSTS` of `search.py`. -/
def BLOCKLIST_HOSTS : List String :=
  ["houjin.info", "houjin.jp", "corporatedb.jp", "baseconnect.in",
   "jpnumber.com", "prtimes.jp", "irbank.net", "maonline.jp",
   "data-link-plus.com",
   "toonippo.co.jp", "yahoo.co.jp", "asahi.com", "mainichi.jp",
   "yomiuri.co.jp", "nikkei.com", "nhk.or.jp"]

/-- `EXCLUDE_KEYWORDS` of `search.py`: substrings whose presence in a
lower-cased URL removes it from the candidate list. -/
def EXCLUDE_KEYWORDS : List String :=
  ["cnavi.g-search.or.jp", "detail/", "mynavi.jp", "fumadata.com",
   "salesnow.jp", "hpsm.noor.jp", "www.nakai-seika.co.jp",
   "www.dreamnews.jp", "en-gage.net", "alarmbox.jp", "shoku-bank.jp",
   "ameblo.jp", "houjin.goo.to", "khn-messe.jp", "www.ekiten.jp",
   "tabelog.com", "prtimes.jp", "gmo-connect.com", "www.hatomarksite.com",
   "map.yahoo.co.jp", "jbplt.jp", "akala.ai", "www.suinaka.or.jp",
   "itp.ne.jp", "caretaxi-net.com", "takunavi.jp", "www.tdb.co.jp",
   "www.buffett-code.com", "mado2.jp", "toukibo.ai-con.lawyer",
   "www.osakataxi.or.jp", "doda.jp", "info.gbiz.go.jp", "www.nikkei.com",
   "www.facebook.com", "baseconnect.in", "www.b-mall.ne.jp",
   "www.seino.co.jp", "?", "%", "x-work.jp", "www.akabou.ne.jp",
   "www2.akabou.ne.jp", "www.hellowork.careers", "drivers-job.biz",
   "sline.co.jp", "korps.jp", "www.big-advance.site", "www.cookdoor.jp",
   "www.nohhi.co.jp", "job.trck.jp", "job.goo.to", "www.yabashi.co.jp",
   "offerers.jp", "curama.jp", "www.marutokusangyo.co.jp",
   "www.daidolife.com", "www.introcompa.com", "truckaichi.com",
   "doraever.jp", "search?", "jp.indeed.com", "www.mapion.co.jp"]

/-- Split a character list at the first occurrence of `sep`, returning
the part before and the part after the separator. -/
def splitFirst (sep : List Char) : List Char → Option (List Char × List Char)
  | [] => if sep.isEmpty then some ([], []) else none
  | c :: cs =>
    if sep.isPrefixOf (c :: cs) then some ([], (c :: cs).drop sep.length)
    else
      match splitFirst sep cs with
      | some (pre, post) => some (c :: pre, post)
      | none => none

/-- Model of `httpx.URL(url).host`: the authority component of an
absolute URL, with user-info and port removed; a reference without a
scheme separator has an empty host (as in `httpx`); a URL containing
whitespace models the `httpx.URL` parse failure (`none` is the raised
exception caught by `_score_url`). -/
def hostOf (url : String) : Option String :=
  let l := url.data
  if l.any isWs then none
  else
    match splitFirst "://".data l with
    | none => some ""
    | some (_, rest) =>
      let auth := rest.takeWhile (· ≠ '/')
      let hostPort :=
        match splitFirst ['@'] auth with
        | some (_, after) => after
        | none => auth
      some ⟨hostPort.takeWhile (· ≠ ':')⟩

/-- The host as `_score_url` prepares it: lower-cased and with a
leading `www.` stripped. -/
def normHost (h : String) : List Char :=
  let hl := lowerL h.data
  if "www.".data.isPrefixOf hl then hl.drop 4 else hl

/-- The block-list membership test of `_score_url`: the host equals a
block-listed domain or is a subdomain of one. -/
def blockedHost (host : List Char) : Bool :=
  BLOCKLIST_HOSTS.any fun b => host = b.data ∨ ("." ++ b).data.isSuffixOf host

/-- `_score_url` of `search.py`: the ranking key `(penalty, length)`;
the penalty adds a block-list part (10) and a TLD-preference part (0
for `.co.jp`/`.ne.jp`/`.or.jp`, 1 for other `.jp`, 2 for `.com`, 5
otherwise); an unparseable URL scores `(100, 100)`. -/
def score_url (url : String) : Nat × Nat :=
  match hostOf url with
  | none => (100, 100)
  | some h =>
    let host := normHost h
    let tld : Nat :=
      if ".co.jp".data.isSuffixOf host ∨ ".ne.jp".data.isSuffixOf host ∨
         ".or.jp".data.isSuffixOf host then 0
      else if ".jp".data.isSuffixOf host then 1
      else if ".com".data.isSuffixOf host then 2
      else 5
    let block : Nat := if blockedHost host then 10 else 0
    (block + tld, url.length)

/-- Python's ascending comparison on the `(penalty, length)` key. -/
def scoreLe (a b : String) : Bool :=
  let ka := score_url a
  let kb := score_url b
  ka.1 < kb.1 ∨ (ka.1 = kb.1 ∧ ka.2 ≤ kb.2)

/-- The ranking preorder as a decidable relation. -/
def scoreRel (a b : String) : Prop :=
  scoreLe a b = true

instance : DecidableRel scoreRel := fun a b => decEq (scoreLe a b) true

/-- Exclusion test of `search_company`: the lower-cased URL contains
one of the `EXCLUDE_KEYWORDS` substrings. -/
def excludedUrl (u : String) : Bool :=
  EXCLUDE_KEYWORDS.any fun k => containsSub (lowerS u) k

/-- Filter-and-rank stage of `search_company` on the backend's result
list: keyword exclusion, then a stable ascending sort by `_score_url`
(Python's `list.sort` is a stable sort, so any stable sort under the
same total preorder — here insertion sort — produces the same output
sequence). -/
def searchFilterSort (urls : List String) : List String :=
  (urls.filter fun u => !excludedUrl u).insertionSort scoreRel

/-- Settings fields consumed by `search_company`. -/
structure SearchSettings where
  search_engine : String
  search_result_limit : Nat

/-- `search_company` of `search.py`.  The DuckDuckGo backend (network
request, anchor parsing, redirect unwrapping, deduplication) is an
external effect, passed in as `backend : query ↦ result URLs`; a
transport failure is the backend returning `[]`.  An unsupported
engine raises `ValueError` (the `Except.error` case). -/
def search_company (backend : String → Nat → List String)
    (settings : SearchSettings) (name : String) (address : Option String) :
    Except String (List String) :=
  let name_n := if normalize_text name = "" then name else normalize_text name
  let addr : String := ⟨stripWs (address.getD "").data⟩
  let addr_n := if addr = "" then "" else normalize_text addr
  let query := if addr_n = "" then name_n else name_n ++ " " ++ addr_n
  let query := query ++ " 企業概要"
  if settings.search_engine = "duckduckgo" then
    Except.ok (searchFilterSort (backend query settings.search_result_limit))
  else
    Except.error ("Unsupported search engine: " ++ settings.search_engine)

/-! ## `app/crawler/extract.py`

The `rapidfuzz` partial-ratio similarity is an external library; it is
passed in as a parameter `simFn` returning a score on the 0–100 scale
(a rational, since `rapidfuzz` returns a float).  The regular
expressions of the source are implemented as explicit scanners with
Python's leftmost-match and greedy/backtracking semantics, with the
`\d`/`\w` classes modelled on the character ranges this repository's
data uses (ASCII digits; ASCII alphanumerics, underscore, kana and CJK
ideographs). -/

/-- `CORP_KEYWORDS` of `extract.py`. -/
def CORP_KEYWORDS : List String :=
  ["会社概要", "会社案内", "企業情報", "採用情報", "お問い合わせ",
   "プライバシー", "個人情報", "特定商取引法", "サイトマップ"]

/-- `NEWS_HOSTS` of `extract.py`. -/
def NEWS_HOSTS : List String :=
  ["toonippo.co.jp", "yahoo.co.jp", "asahi.com", "mainichi.jp",
   "yomiuri.co.jp", "nikkei.com", "nhk.or.jp"]

/-- Existence of a match at some position: `re.search` truthiness. -/
def scanAny (p : List Char → Bool) : List Char → Bool
  | [] => p []
  | c :: cs => p (c :: cs) || scanAny p cs

/-- Leftmost match returning the captured group: `re.search` plus
`group(1)`. -/
def scanFirst (p : List Char → Option (List Char)) : List Char → Option (List Char)
  | [] => p []
  | c :: cs =>
    match p (c :: cs) with
    | some g => some g
    | none => scanFirst p cs

/-- Consume exactly `k` ASCII digits (`\d{k}`), returning the rest. -/
def takeDigits : Nat → List Char → Option (List Char)
  | 0, l => some l
  | _ + 1, [] => none
  | k + 1, c :: cs => if c.isDigit then takeDigits k cs else none

/-- Tail of `POSTAL_RE`: `\d{3}-?\d{4}`. -/
def postalTail (l : List Char) : Bool :=
  match takeDigits 3 l with
  | none => false
  | some r =>
    match r with
    | '-' :: r₂ => (takeDigits 4 r₂).isSome
    | _ => (takeDigits 4 r).isSome

/-- `POSTAL_RE` (`〒?\s?\d{3}-?\d{4}`) matching at this position. -/
def postalAt (l : List Char) : Bool :=
  let afterMark : List (List Char) :=
    match l with
    | '〒' :: r => [r, l]
    | _ => [l]
  afterMark.any fun m =>
    let afterWs : List (List Char) :=
      match m with
      | c :: r => if isWs c then [r, m] else [m]
      | [] => [m]
    afterWs.any postalTail

/-- `PHONE_RE` (`0\d{1,4}-\d{1,4}-\d{3,4}`) matching at this
position. -/
def phoneAt (l : List Char) : Bool :=
  match l with
  | '0' :: r =>
    [1, 2, 3, 4].any fun k₁ =>
      match takeDigits k₁ r with
      | some ('-' :: r₂) =>
        [1, 2, 3, 4].any fun k₂ =>
          match takeDigits k₂ r₂ with
          | some ('-' :: r₃) => [3, 4].any fun k₃ => (takeDigits k₃ r₃).isSome
          | _ => false
      | _ => false
  | _ => false

/-- Character class `[0-9,\.]` of `CAPITAL_PATTERNS`. -/
def capitalClass (c : Char) : Bool :=
  c.isDigit || c = ',' || c = '.'

/-- Case-insensitive literal prefix test (`re.IGNORECASE`). -/
def icPrefix (pat : List Char) (l : List Char) : Bool :=
  pat.isPrefixOf (lowerL (l.take pat.length))

/-- Japanese capital pattern `(?:資本金)[:：]?\s*([0-9,\.]+(?:万円|円)?)`
matching at this position, returning `group(1).strip()`. -/
def capJaAt (l : List Char) : Option (List Char) :=
  if "資本金".data.isPrefixOf l then
    let r := l.drop 3
    let r :=
      match r with
      | ':' :: t => t
      | '：' :: t => t
      | _ => r
    let r₂ := r.dropWhile isWs
    let g := r₂.takeWhile capitalClass
    if g.isEmpty then none
    else
      let rest := r₂.drop g.length
      let g₂ :=
        if "万円".data.isPrefixOf rest then g ++ "万円".data
        else if "円".data.isPrefixOf rest then g ++ "円".data
        else g
      some (stripWs g₂)
  else none

/-- English capital pattern
`(?:capital)[:：]?\s*([0-9,\.]+(?:\s*(?:yen|jpy))?)` (case-insensitive)
matching at this position, returning `group(1).strip()`. -/
def capEnAt (l : List Char) : Option (List Char) :=
  if icPrefix "capital".data l then
    let r := l.drop 7
    let r :=
      match r with
      | ':' :: t => t
      | '：' :: t => t
      | _ => r
    let r₂ := r.dropWhile isWs
    let g := r₂.takeWhile capitalClass
    if g.isEmpty then none
    else
      let rest := r₂.drop g.length
      let ws₂ := rest.takeWhile isWs
      let rest₂ := rest.drop ws₂.length
      let g₂ :=
        if icPrefix "yen".data rest₂ then g ++ ws₂ ++ rest₂.take 3
        else if icPrefix "jpy".data rest₂ then g ++ ws₂ ++ rest₂.take 3
        else g
      some (stripWs g₂)
  else none

/-- Character class `[\w一-龠ぁ-んァ-ンー・、\s]` of the Japanese
industry pattern: Unicode word characters (modelled as ASCII
alphanumerics, underscore, the kana blocks and the CJK ideographs),
the ideographic comma, and whitespace. -/
def industryClass (c : Char) : Bool :=
  c.isAlphanum || c = '_' ||
  (0x3040 ≤ c.toNat ∧ c.toNat ≤ 0x30FF) ||
  (0x4E00 ≤ c.toNat ∧ c.toNat ≤ 0x9FFF) ||
  c = '、' || isWs c

/-- Japanese industry pattern `(?:業種)[:：]?\s*([class]+)` matching at
this position (the class contains `\s`, so when only whitespace follows
the label the greedy `\s*` backtracks one character and the stripped
group is empty), returning `group(1).strip()`. -/
def indJaAt (l : List Char) : Option (List Char) :=
  if "業種".data.isPrefixOf l then
    let r := l.drop 2
    let r :=
      match r with
      | ':' :: t => t
      | '：' :: t => t
      | _ => r
    let ws := r.takeWhile isWs
    let r₂ := r.drop ws.length
    let g := r₂.takeWhile industryClass
    if ¬g.isEmpty then some (stripWs g)
    else if ¬ws.isEmpty then some []
    else none
  else none

/-- Body of the English industry pattern after the optional colon:
`\s*(.+)` where `.` is any character but a newline. -/
def indEnBody (r : List Char) : Option (List Char) :=
  let ws := r.takeWhile isWs
  let r₂ := r.drop ws.length
  let g := r₂.takeWhile (· ≠ '\n')
  if ¬g.isEmpty then some (stripWs g)
  else
    match ws.getLast? with
    | some c => if c ≠ '\n' then some [] else none
    | none => none

/-- English industry pattern `(?:business)[:：]?\s*(.+)`
(case-insensitive) matching at this position; since `.` also matches a
colon, a failing match with the optional colon consumed backtracks and
lets the group start at the colon itself. -/
def indEnAt (l : List Char) : Option (List Char) :=
  if icPrefix "business".data l then
    let r := l.drop 8
    match r with
    | ':' :: t => (indEnBody t).orElse fun _ => indEnBody r
    | '：' :: t => (indEnBody t).orElse fun _ => indEnBody r
    | _ => indEnBody r
  else none

/-- `_extract_field` of `extract.py`: first pattern in order whose
search succeeds wins; its captured group, stripped, is kept. -/
def extractField (pats : List (List Char → Option (List Char))) (t : List Char) :
    Option String :=
  match pats with
  | [] => none
  | p :: ps =>
    match scanFirst p t with
    | some g => some ⟨g⟩
    | none => extractField ps t

/-- `_match_company_text` of `extract.py`, parameterised by the
external `rapidfuzz` partial-ratio score `simFn`.  The `address`
argument is the company's address string (the store's `address` column
is non-nullable; handing the function Python's `None` instead would
make `normalize_text` raise, see `normalizeTextPy`). -/
def matchCompanyText (simFn : String → String → ℚ)
    (pageText companyName address : String) : Bool :=
  let normalized_page := normalize_text pageText
  let name_score := simFn (normalize_text companyName) normalized_page
  let addr_norm := normalize_text address
  if addr_norm = "" then name_score > 80
  else name_score > 80 ∧ simFn addr_norm normalized_page > 75

/-- `ExtractionResult` of `extract.py`. -/
structure ExtractionResult where
  matched : Bool
  homepage_url : Option String
  capital : Option String
  industry : Option String
deriving Repr, DecidableEq

/-- Model of `urlparse(url)`: the `(netloc, path)` pair, the path taken
up to any query or fragment. -/
def netlocPath (url : String) : String × String :=
  match splitFirst "://".data url.data with
  | none => ("", ⟨url.data.takeWhile fun c => c ≠ '?' ∧ c ≠ '#'⟩)
  | some (_, rest) =>
    let auth := rest.takeWhile (· ≠ '/')
    let after := rest.dropWhile (· ≠ '/')
    (⟨auth⟩, ⟨after.takeWhile fun c => c ≠ '?' ∧ c ≠ '#'⟩)

/-- `analyze_page` of `extract.py` on the page's visible text
(`soup.get_text(separator=" ")` is the external HTML-to-text step, so
the page is its text here). -/
def analyze_page (simFn : String → String → ℚ)
    (pageText url companyName address : String) : ExtractionResult :=
  let t := pageText.data
  let signals : Nat :=
    (if scanAny postalAt t then 1 else 0) +
    (if scanAny phoneAt t then 1 else 0) +
    (if CORP_KEYWORDS.any (fun kw => containsSub pageText kw) then 1 else 0)
  let np := netlocPath url
  let host := lowerS np.1
  let path := lowerS np.2
  let news_like :=
    NEWS_HOSTS.any (fun h => h.data.isSuffixOf host.data) ||
    ["/article", "/articles", "/news/"].any fun seg => containsSub path seg
  let capital := extractField [capJaAt, capEnAt] t
  let industry := extractField [indJaAt, indEnAt] t
  let matched₀ := matchCompanyText simFn pageText companyName address
  let matched := if news_like ∧ signals < 2 then false else matched₀
  { matched := matched
    homepage_url := if matched then some url else none
    capital := capital
    industry := industry }

/-! ## `app/services/llm.py`

The file as committed does not parse: the prompt literal of
`LLMVerifier.validate` is followed by a stray closing parenthesis
(line 77), a `SyntaxError` raised as soon as the module is imported —
which `pipeline.py` does unconditionally (`from .llm import LLMRequest,
LLMVerifier`, and `CrawlPipeline.__init__` constructs `LLMVerifier()`).
No executable `validate` therefore exists in the repository, and no
behaviour of it is embedded here; the verifier enters the pipeline
model only through its interface boundary (the `llmEnabled` flag and
the `llmVerdict` oracle of `PipelineEnv`), as the spec itself
externalises it.  Only the `LLMRequest` data shape, which that
boundary consumes, is transcribed. -/

/-- `LLMRequest` of `llm.py`. -/
structure LLMRequest where
  company_name : String
  address : String
  page_text : String

/-! ## `app/services/pipeline.py`

The store (`db.fetch_companies` / `db.update_company`), the fetcher and
the search backend are external effects, entering through
`PipelineEnv`; a `db.update_company` call is recorded as a `DbUpdate`
value, and the URLs handed to `fetch.fetch_html` are recorded in a
trace.  Concurrency is linearised: every counter-and-log mutation of
`_process_company` is a single critical section under the per-job
`asyncio.Lock` (each pair of counter increments shares one section), so
the counters after any interleaving of company tasks equal those of the
sequential fold modelled here. -/

/-- One company row as read by the pipeline (`address` is a non-null
column of the store; the structured-address recomposition of
`db.fetch_companies` happens store-side). -/
structure Company where
  id : Nat
  corporate_number : String
  name : String
  address : String
  homepage_url : Option String
deriving Repr, DecidableEq

/-- `JobConfig` of `pipeline.py`. -/
structure JobConfig where
  prefecture : Option String
  limit : Option Nat
  chunk_size : Nat
  concurrency : Nat
  skip_existing : Bool

/-- The mutable counters and log of `JobState` (the immutable `job_id`
and `config` fields are carried separately). -/
structure JobState where
  total : Nat
  processed : Nat
  successes : Nat
  failures : Nat
  skipped : Nat
  log : List String
deriving Repr, DecidableEq

/-- The all-zero counters of a freshly created job. -/
def initialJobState : JobState :=
  ⟨0, 0, 0, 0, 0, []⟩

/-- Arguments of one `db.update_company` call. -/
structure DbUpdate where
  company_id : Nat
  homepage_url : Option String
  capital : Option String
  industry : Option String
  status : String
deriving Repr, DecidableEq

/-- External collaborators of the pipeline: the candidate search
(already filtered and ranked, failures yielding `[]`), the page
fetcher (`none` models a failed fetch), the LLM verifier's `enabled`
flag and verdict, and the similarity score. -/
structure PipelineEnv where
  search : String → String → List String
  fetchPage : String → Option String
  llmEnabled : Bool
  llmVerdict : LLMRequest → Option Bool
  simFn : String → String → ℚ

/-- Python truthiness of the optional `homepage_url` field: `None` and
`""` are falsy. -/
def truthyOpt : Option String → Bool
  | none => false
  | some s => !(s == "")

/-- `CrawlPipeline._verify_candidate`: deterministic extractor first;
only when it did not match, and the verifier is enabled, ask the LLM;
`if llm_result:` accepts only a `True` verdict. -/
def verify_candidate (env : PipelineEnv) (c : Company) (pageText url : String) :
    Option ExtractionResult :=
  let result := analyze_page env.simFn pageText url c.name c.address
  if result.matched then some result
  else if env.llmEnabled then
    match env.llmVerdict ⟨c.name, c.address, pageText⟩ with
    | some true => some ⟨true, some url, result.capital, result.industry⟩
    | _ => none
  else none

/-- The candidate loop of `_process_company`: fetch each URL in order,
skip fetch failures and non-matches, stop at the first match.  Returns
the match (candidate URL and its result) and the trace of URLs handed
to the fetcher. -/
def candidateLoop (env : PipelineEnv) (c : Company) :
    List String → Option (String × ExtractionResult) × List String
  | [] => (none, [])
  | u :: rest =>
    match env.fetchPage u with
    | none =>
      let r := candidateLoop env c rest
      (r.1, u :: r.2)
    | some p =>
      match verify_candidate env c p u with
      | none =>
        let r := candidateLoop env c rest
        (r.1, u :: r.2)
      | some res => (some (u, res), [u])

/-- Result of processing one company: the new job state, the
`db.update_company` calls issued, and the fetch trace. -/
structure StepOut where
  state : JobState
  updates : List DbUpdate
  fetched : List String
deriving Repr, DecidableEq

/-- `CrawlPipeline._process_company`. -/
def process_company (env : PipelineEnv) (skipExisting : Bool)
    (st : JobState) (c : Company) : StepOut :=
  if skipExisting && truthyOpt c.homepage_url then
    { state :=
        { st with
          skipped := st.skipped + 1
          processed := st.processed + 1
          log := st.log ++
            ["既存URLのためスキップ: " ++ c.name ++ " (" ++ c.corporate_number ++ ")"] }
      updates := []
      fetched := [] }
  else
    let st₁ :=
      { st with
        log := st.log ++ ["検索開始: " ++ c.name ++ " (" ++ c.corporate_number ++ ")"] }
    let candidate_urls := env.search c.name c.address
    if candidate_urls.isEmpty then
      { state :=
          { st₁ with
            failures := st₁.failures + 1
            processed := st₁.processed + 1
            log := st₁.log ++ ["候補URLが見つかりませんでした。"] }
        updates := [⟨c.id, none, none, none, "no_candidates"⟩]
        fetched := [] }
    else
      match candidateLoop env c candidate_urls with
      | (some (u, res), tr) =>
        { state :=
            { st₁ with
              successes := st₁.successes + 1
              processed := st₁.processed + 1
              log := st₁.log ++ ["一致: " ++ u] }
          updates := [⟨c.id, res.homepage_url, res.capital, res.industry, "matched"⟩]
          fetched := tr }
      | (none, tr) =>
        { state :=
            { st₁ with
              failures := st₁.failures + 1
              processed := st₁.processed + 1
              log := st₁.log ++ ["一致するページがありませんでした。"] }
          updates := [⟨c.id, none, none, none, "no_match"⟩]
          fetched := tr }

/-- Batch loop of `CrawlPipeline.run`: `batches` is the sequence of
pages `db.fetch_companies` returns at offsets 0, chunk, 2·chunk, …;
the loop stops at the first empty page, updates the `total` estimate
per page, schedules companies up to the job's `limit`, and appends the
completion log line. -/
def runBatches (env : PipelineEnv) (cfg : JobConfig) :
    List (List Company) → Nat → Nat → JobState → JobState
  | [], _, _, st => { st with log := st.log ++ ["ジョブが完了しました。"] }
  | batch :: rest, fetchedN, scheduled, st =>
    if batch.isEmpty then { st with log := st.log ++ ["ジョブが完了しました。"] }
    else
      let fetched' := fetchedN + batch.length
      let st₁ :=
        { st with
          total :=
            match cfg.limit with
            | none => fetched'
            | some lim => min fetched' lim }
      let toSchedule :=
        match cfg.limit with
        | none => batch
        | some lim => batch.take (lim - scheduled)
      let st₂ :=
        toSchedule.foldl (fun s c => (process_company env cfg.skip_existing s c).state) st₁
      let scheduled' := scheduled + toSchedule.length
      match cfg.limit with
      | some lim =>
        if lim ≤ scheduled' then { st₂ with log := st₂.log ++ ["ジョブが完了しました。"] }
        else runBatches env cfg rest fetched' scheduled' st₂
      | none => runBatches env cfg rest fetched' scheduled' st₂

/-- `CrawlPipeline.run` from a fresh job state. -/
def pipeline_run (env : PipelineEnv) (cfg : JobConfig)
    (batches : List (List Company)) : JobState :=
  runBatches env cfg batches 0 0 initialJobState

/-! ## Helper lemmas on the pipeline -/

/-- A candidate URL "hits" when its fetch succeeds and the combined
verdict on the fetched page is a match. -/
def isHit (env : PipelineEnv) (c : Company) (u : String) : Bool :=
  match env.fetchPage u with
  | none => false
  | some p => (verify_candidate env c p u).isSome

/-- The combined verdict as the spec words it: the deterministic
extractor's match, or — when the verifier is enabled — an affirmative
LLM verdict. -/
def combinedVerdict (env : PipelineEnv) (c : Company) (pageText url : String) : Bool :=
  (analyze_page env.simFn pageText url c.name c.address).matched ||
  (env.llmEnabled && (env.llmVerdict ⟨c.name, c.address, pageText⟩ == some true))

theorem analyze_page_homepage (simFn : String → String → ℚ)
    (pageText url companyName address : String) :
    (analyze_page simFn pageText url companyName address).homepage_url =
      if (analyze_page simFn pageText url companyName address).matched then some url
      else none := by
  simp only [analyze_page]

theorem verify_candidate_some (env : PipelineEnv) (c : Company)
    (p u : String) (r : ExtractionResult)
    (h : verify_candidate env c p u = some r) :
    r.matched = true ∧ r.homepage_url = some u := by
  unfold verify_candidate at h
  by_cases hm : (analyze_page env.simFn p u c.name c.address).matched = true
  · simp only [hm, if_true, Option.some.injEq] at h
    subst h
    refine ⟨hm, ?_⟩
    rw [analyze_page_homepage, hm]
    simp
  · simp only [hm] at h
    rcases henb : env.llmEnabled with _ | _ <;> rw [henb] at h
    · simp at h
    · simp only [if_true] at h
      rcases hv : env.llmVerdict ⟨c.name, c.address, p⟩ with _ | b
      · rw [hv] at h; simp at h
      · rw [hv] at h
        cases b
        · simp at h
        · simp at h
          subst h
          exact ⟨rfl, rfl⟩

theorem verify_candidate_isSome (env : PipelineEnv) (c : Company) (p u : String) :
    (verify_candidate env c p u).isSome = combinedVerdict env c p u := by
  unfold verify_candidate combinedVerdict
  by_cases hm : (analyze_page env.simFn p u c.name c.address).matched = true
  · simp [hm]
  · simp only [Bool.not_eq_true] at hm
    simp only [hm, if_false, Bool.false_or]
    rcases henb : env.llmEnabled with _ | _
    · simp
    · rcases hv : env.llmVerdict ⟨c.name, c.address, p⟩ with _ | b
      · simp
      · cases b <;> simp

theorem candidateLoop_all_miss (env : PipelineEnv) (c : Company)
    (urls : List String) (h : ∀ v ∈ urls, isHit env c v = false) :
    candidateLoop env c urls = (none, urls) := by
  induction urls with
  | nil => rfl
  | cons u rest ih =>
    have hu := h u (List.mem_cons_self u rest)
    have hrest : ∀ v ∈ rest, isHit env c v = false :=
      fun v hv => h v (List.mem_cons_of_mem _ hv)
    have hrec := ih hrest
    unfold candidateLoop
    split
    next hf => simp [hrec]
    next p hf =>
      split
      next hvc => simp [hrec]
      next res hvc =>
        exfalso
        have hu' : (verify_candidate env c p u).isSome = false := by
          unfold isHit at hu
          rw [hf] at hu
          exact hu
        rw [hvc] at hu'
        simp at hu'

theorem candidateLoop_first_hit (env : PipelineEnv) (c : Company)
    (pre post : List String) (u : String)
    (hpre : ∀ v ∈ pre, isHit env c v = false)
    (hu : isHit env c u = true) :
    ∃ p r, env.fetchPage u = some p ∧ verify_candidate env c p u = some r ∧
      candidateLoop env c (pre ++ u :: post) = (some (u, r), pre ++ [u]) := by
  induction pre with
  | nil =>
    rcases hf : env.fetchPage u with _ | p
    · exfalso
      have hu' : false = true := by
        unfold isHit at hu
        rw [hf] at hu
        exact hu
      exact Bool.false_ne_true hu'
    · have hu' : (verify_candidate env c p u).isSome = true := by
        unfold isHit at hu
        rw [hf] at hu
        exact hu
      obtain ⟨res, hvc⟩ := Option.isSome_iff_exists.mp hu'
      refine ⟨p, res, rfl, hvc, ?_⟩
      show candidateLoop env c (u :: post) = (some (u, res), [u])
      unfold candidateLoop
      split
      next hfn => rw [hf] at hfn; cases hfn
      next q hfq =>
        rw [hf] at hfq
        injection hfq with hq
        subst hq
        split
        next hvn => rw [hvc] at hvn; cases hvn
        next res' hvs =>
          rw [hvc] at hvs
          injection hvs with h'
          subst h'
          rfl
  | cons v vs ih =>
    have hv := hpre v (List.mem_cons_self v vs)
    have hvs : ∀ w ∈ vs, isHit env c w = false :=
      fun w hw => hpre w (List.mem_cons_of_mem _ hw)
    obtain ⟨p, r, hf, hvc, hloop⟩ := ih hvs
    refine ⟨p, r, hf, hvc, ?_⟩
    show candidateLoop env c (v :: (vs ++ u :: post)) = (some (u, r), v :: (vs ++ [u]))
    unfold candidateLoop
    split
    next hfv => simp [hloop]
    next q hfv =>
      split
      next hvq => simp [hloop]
      next res hvq =>
        exfalso
        have hv' : (verify_candidate env c q v).isSome = false := by
          unfold isHit at hv
          rw [hfv] at hv
          exact hv
        rw [hvq] at hv'
        simp at hv'

theorem process_company_counters (env : PipelineEnv) (sk : Bool)
    (st : JobState) (c : Company) :
    (process_company env sk st c).state.processed = st.processed + 1 ∧
    (process_company env sk st c).state.successes +
        (process_company env sk st c).state.failures +
        (process_company env sk st c).state.skipped
      = st.successes + st.failures + st.skipped + 1 ∧
    (process_company env sk st c).state.total = st.total ∧
    st.successes ≤ (process_company env sk st c).state.successes ∧
    st.failures ≤ (process_company env sk st c).state.failures ∧
    st.skipped ≤ (process_company env sk st c).state.skipped := by
  unfold process_company
  split
  · refine ⟨rfl, by dsimp only; omega, rfl, ?_, ?_, ?_⟩ <;> dsimp only <;> omega
  · dsimp only
    split
    · refine ⟨rfl, by dsimp only; omega, rfl, ?_, ?_, ?_⟩ <;> dsimp only <;> omega
    · split
      · refine ⟨rfl, by dsimp only; omega, rfl, ?_, ?_, ?_⟩ <;> dsimp only <;> omega
      · refine ⟨rfl, by dsimp only; omega, rfl, ?_, ?_, ?_⟩ <;> dsimp only <;> omega

/-- The job-state invariant of the spec:
`processed == successes + failures + skipped`. -/
def countersOk (st : JobState) : Prop :=
  st.processed = st.successes + st.failures + st.skipped

theorem process_company_preserves (env : PipelineEnv) (sk : Bool)
    (c : Company) {st : JobState} (h : countersOk st) :
    countersOk (process_company env sk st c).state := by
  have hc := process_company_counters env sk st c
  unfold countersOk at *
  omega

theorem foldl_process_preserves (env : PipelineEnv) (sk : Bool)
    (l : List Company) {st : JobState} (h : countersOk st) :
    countersOk (l.foldl (fun s c => (process_company env sk s c).state) st) := by
  induction l generalizing st with
  | nil => exact h
  | cons c cs ih => exact ih (process_company_preserves env sk c h)

theorem runBatches_preserves (env : PipelineEnv) (cfg : JobConfig)
    (bs : List (List Company)) (f s : Nat) {st : JobState}
    (h : countersOk st) : countersOk (runBatches env cfg bs f s st) := by
  induction bs generalizing f s st with
  | nil => exact h
  | cons b rest ih =>
    unfold runBatches
    split
    · exact h
    · have h₁ : countersOk
          { st with total := match cfg.limit with
              | none => f + b.length
              | some lim => min (f + b.length) lim } := h
      have h₂ := foldl_process_preserves env cfg.skip_existing
        (match cfg.limit with
          | none => b
          | some lim => b.take (lim - s)) h₁
      dsimp only
      split
      · split
        · exact h₂
        · exact ih _ _ h₂
      · exact ih _ _ h₂

/-- C1: at completion of a run the `JobState` counters satisfy
`processed = successes + failures + skipped`; each terminal transition
of `_process_company` (skip, no-candidates, no-match, matched)
increments `processed` by exactly one and exactly one of the three
outcome counters, so all counters are monotonically non-decreasing
throughout the run. -/
theorem C1_job_counters :
    (∀ (env : PipelineEnv) (cfg : JobConfig) (batches : List (List Company)),
      (pipeline_run env cfg batches).processed =
        (pipeline_run env cfg batches).successes +
        (pipeline_run env cfg batches).failures +
        (pipeline_run env cfg batches).skipped) ∧
    (∀ (env : PipelineEnv) (sk : Bool) (st : JobState) (c : Company),
      (process_company env sk st c).state.processed = st.processed + 1 ∧
      (process_company env sk st c).state.successes +
          (process_company env sk st c).state.failures +
          (process_company env sk st c).state.skipped
        = st.successes + st.failures + st.skipped + 1 ∧
      st.processed ≤ (process_company env sk st c).state.processed ∧
      st.successes ≤ (process_company env sk st c).state.successes ∧
      st.failures ≤ (process_company env sk st c).state.failures ∧
      st.skipped ≤ (process_company env sk st c).state.skipped ∧
      (process_company env sk st c).state.total = st.total) :=
  ⟨fun env cfg batches => runBatches_preserves env cfg batches 0 0 rfl,
   fun env sk st c => by
    have hc := process_company_counters env sk st c
    exact ⟨hc.1, hc.2.1, by omega, hc.2.2.2.1, hc.2.2.2.2.1, hc.2.2.2.2.2, hc.2.2.1⟩⟩

theorem process_company_skip_case (env : PipelineEnv) (sk : Bool)
    (st : JobState) (c : Company)
    (hskip : (sk && truthyOpt c.homepage_url) = true) :
    process_company env sk st c =
      { state :=
          { st with
            skipped := st.skipped + 1
            processed := st.processed + 1
            log := st.log ++
              ["既存URLのためスキップ: " ++ c.name ++ " (" ++ c.corporate_number ++ ")"] }
        updates := []
        fetched := [] } := by
  unfold process_company
  rw [hskip]
  rfl

theorem process_company_nocand_case (env : PipelineEnv) (sk : Bool)
    (st : JobState) (c : Company)
    (hskip : (sk && truthyOpt c.homepage_url) = false)
    (hsearch : env.search c.name c.address = []) :
    process_company env sk st c =
      { state :=
          { st with
            failures := st.failures + 1
            processed := st.processed + 1
            log := (st.log ++
                ["検索開始: " ++ c.name ++ " (" ++ c.corporate_number ++ ")"]) ++
              ["候補URLが見つかりませんでした。"] }
        updates := [⟨c.id, none, none, none, "no_candidates"⟩]
        fetched := [] } := by
  unfold process_company
  rw [hskip, hsearch]
  rfl

theorem process_company_match_case (env : PipelineEnv) (sk : Bool)
    (st : JobState) (c : Company) (urls : List String) (u : String)
    (r : ExtractionResult) (tr : List String)
    (hskip : (sk && truthyOpt c.homepage_url) = false)
    (hsearch : env.search c.name c.address = urls)
    (hne : urls.isEmpty = false)
    (hloop : candidateLoop env c urls = (some (u, r), tr)) :
    process_company env sk st c =
      { state :=
          { st with
            successes := st.successes + 1
            processed := st.processed + 1
            log := (st.log ++
                ["検索開始: " ++ c.name ++ " (" ++ c.corporate_number ++ ")"]) ++
              ["一致: " ++ u] }
        updates := [⟨c.id, r.homepage_url, r.capital, r.industry, "matched"⟩]
        fetched := tr } := by
  unfold process_company
  rw [hskip]
  simp only [Bool.false_eq_true, if_false]
  rw [hsearch, hne]
  simp only [Bool.false_eq_true, if_false]
  rw [hloop]

theorem process_company_nomatch_case (env : PipelineEnv) (sk : Bool)
    (st : JobState) (c : Company) (urls : List String) (tr : List String)
    (hskip : (sk && truthyOpt c.homepage_url) = false)
    (hsearch : env.search c.name c.address = urls)
    (hne : urls.isEmpty = false)
    (hloop : candidateLoop env c urls = (none, tr)) :
    process_company env sk st c =
      { state :=
          { st with
            failures := st.failures + 1
            processed := st.processed + 1
            log := (st.log ++
                ["検索開始: " ++ c.name ++ " (" ++ c.corporate_number ++ ")"]) ++
              ["一致するページがありませんでした。"] }
        updates := [⟨c.id, none, none, none, "no_match"⟩]
        fetched := tr } := by
  unfold process_company
  rw [hskip]
  simp only [Bool.false_eq_true, if_false]
  rw [hsearch, hne]
  simp only [Bool.false_eq_true, if_false]
  rw [hloop]

/-- C2: candidates are fetched and verified in the ranked order of the
candidate list; a failed fetch skips to the next candidate; at the
first candidate whose combined verdict (deterministic extractor first,
then the LLM verifier only when the extractor did not match and the
verifier is enabled — captured by `combinedVerdict` and the final
conjunct) is a match, the company is recorded as matched with that
candidate's URL, and no later candidate is fetched or evaluated (the
fetch trace is exactly `pre ++ [u]`). -/
theorem C2_first_match_wins (env : PipelineEnv) (st : JobState) (c : Company)
    (sk : Bool) (pre post : List String) (u : String)
    (hskip : (sk && truthyOpt c.homepage_url) = false)
    (hsearch : env.search c.name c.address = pre ++ u :: post)
    (hpre : ∀ v ∈ pre, isHit env c v = false)
    (hu : isHit env c u = true) :
    ∃ p r, env.fetchPage u = some p ∧ verify_candidate env c p u = some r ∧
      r.matched = true ∧ r.homepage_url = some u ∧
      (process_company env sk st c).updates =
        [⟨c.id, some u, r.capital, r.industry, "matched"⟩] ∧
      (process_company env sk st c).fetched = pre ++ [u] ∧
      (process_company env sk st c).state.successes = st.successes + 1 ∧
      (∀ q v, (verify_candidate env c q v).isSome = combinedVerdict env c q v) := by
  obtain ⟨p, r, hf, hvc, hloop⟩ := candidateLoop_first_hit env c pre post u hpre hu
  have hvr := verify_candidate_some env c p u r hvc
  have hne : (pre ++ u :: post).isEmpty = false := by
    cases pre <;> rfl
  have hmain := process_company_match_case env sk st c (pre ++ u :: post) u r
    (pre ++ [u]) hskip hsearch hne hloop
  refine ⟨p, r, hf, hvc, hvr.1, hvr.2, ?_, ?_, ?_,
    fun q v => verify_candidate_isSome env c q v⟩
  · rw [hmain, hvr.2]
  · rw [hmain]
  · rw [hmain]

/-- Environment for the C2 witness: three ranked candidates, the first
fetch failing, the second fetching a page whose similarity is 100 with
an empty address. -/
def envC2 : PipelineEnv :=
  { search := fun _ _ => ["u1", "u2", "u3"]
    fetchPage := fun u => if u = "u1" then none else some "p"
    llmEnabled := false
    llmVerdict := fun _ => none
    simFn := fun _ _ => 100 }

/-- Company for the C2 witness. -/
def compC2 : Company :=
  ⟨1, "0001", "acme", "", none⟩

theorem C2_first_match_wins_witness :
    ∃ p r, envC2.fetchPage "u2" = some p ∧
      verify_candidate envC2 compC2 p "u2" = some r ∧
      r.matched = true ∧ r.homepage_url = some "u2" ∧
      (process_company envC2 false initialJobState compC2).updates =
        [⟨compC2.id, some "u2", r.capital, r.industry, "matched"⟩] ∧
      (process_company envC2 false initialJobState compC2).fetched = ["u1"] ++ ["u2"] ∧
      (process_company envC2 false initialJobState compC2).state.successes =
        initialJobState.successes + 1 ∧
      (∀ q v, (verify_candidate envC2 compC2 q v).isSome =
        combinedVerdict envC2 compC2 q v) :=
  C2_first_match_wins envC2 initialJobState compC2 false ["u1"] ["u3"] "u2"
    (by decide) rfl (by decide) (by decide)

/-- C4: `_match_company_text` matches exactly when the name similarity
is strictly above 80 and, for a non-empty normalised address, the
address similarity is strictly above 75; with an empty normalised
address only the name threshold applies; a name score of exactly 80
never matches. -/
theorem C4_match_thresholds :
    (∀ (simFn : String → String → ℚ) (page name addr : String),
      matchCompanyText simFn page name addr = true ↔
        (simFn (normalize_text name) (normalize_text page) > 80 ∧
          (normalize_text addr = "" ∨
            simFn (normalize_text addr) (normalize_text page) > 75))) ∧
    (∀ (simFn : String → String → ℚ) (page name addr : String),
      simFn (normalize_text name) (normalize_text page) = 80 →
      matchCompanyText simFn page name addr = false) := by
  constructor
  · intro simFn page name addr
    unfold matchCompanyText
    by_cases haddr : normalize_text addr = ""
    · simp [haddr]
    · simp [haddr]
  · intro simFn page name addr h80
    unfold matchCompanyText
    by_cases haddr : normalize_text addr = ""
    · simp [haddr, h80]
    · simp [haddr, h80]

/-- Constant similarity score used by the C4 witness. -/
def simFn80 : String → String → ℚ := fun _ _ => 80

theorem C4_match_thresholds_witness :
    simFn80 (normalize_text "acme") (normalize_text "some page") = 80 ∧
    matchCompanyText simFn80 "some page" "acme" "tokyo" = false :=
  ⟨rfl, C4_match_thresholds.2 simFn80 "some page" "acme" "tokyo" rfl⟩

/-- C7 counterexample: `normalize_text` handed Python's `None` (as
`_match_company_text` does for an absent address) raises `TypeError`
inside `unicodedata.normalize` instead of returning the empty string,
so the normaliser is not total on absent input. -/
theorem C7_counterexample :
    normalizeTextPy none = none ∧ normalizeTextPy none ≠ some "" :=
  ⟨rfl, by decide⟩

/-- C7 (amended): on every actual string the normaliser is total —
it never fails and the empty string maps to the empty string; an
absent (`None`) input is not handled and raises instead (callers in
`search.py` guard with `address or ""`). -/
theorem C7_total_on_strings :
    (∀ s : String, normalizeTextPy (some s) = some (normalize_text s)) ∧
    normalize_text "" = "" :=
  ⟨fun _ => rfl, rfl⟩

/-- C9 counterexample: a company skipped for an existing homepage URL
reaches the terminal `skipped` state but `_process_company` issues no
store update at all for it, so the `skipped` status is not persisted. -/
theorem C9_counterexample :
    (process_company ⟨fun _ _ => [], fun _ => none, false, fun _ => none, fun _ _ => 0⟩
        true initialJobState ⟨2, "0002", "acme", "tokyo", some "http://x"⟩).state.skipped = 1 ∧
    (process_company ⟨fun _ _ => [], fun _ => none, false, fun _ => none, fun _ _ => 0⟩
        true initialJobState ⟨2, "0002", "acme", "tokyo", some "http://x"⟩).updates = [] := by
  decide

/-- C9 (amended): every processed company ends in one of the terminal
states `{skipped, no_candidates, no_match, matched}`; for the three
search-path outcomes exactly one store update is issued, carrying that
terminal status, with homepage, capital and industry cleared for the
non-matched statuses; the `skipped` outcome issues no store update. -/
theorem C9_terminal_status_updates (env : PipelineEnv) (sk : Bool)
    (st : JobState) (c : Company) :
    ((sk && truthyOpt c.homepage_url) = true →
      (process_company env sk st c).updates = [] ∧
      (process_company env sk st c).state.skipped = st.skipped + 1) ∧
    ((sk && truthyOpt c.homepage_url) = false →
      (process_company env sk st c).updates.length = 1 ∧
      ∀ upd ∈ (process_company env sk st c).updates,
        upd.company_id = c.id ∧
        (upd.status = "no_candidates" ∨ upd.status = "no_match" ∨
          upd.status = "matched") ∧
        (upd.status ≠ "matched" →
          upd.homepage_url = none ∧ upd.capital = none ∧ upd.industry = none)) := by
  constructor
  · intro h
    rw [process_company_skip_case env sk st c h]
    exact ⟨rfl, rfl⟩
  · intro h
    rcases hs : env.search c.name c.address with _ | ⟨u₀, rest⟩
    · rw [process_company_nocand_case env sk st c h hs]
      refine ⟨rfl, ?_⟩
      intro upd hupd
      rw [List.mem_singleton] at hupd
      subst hupd
      exact ⟨rfl, Or.inl rfl, fun _ => ⟨rfl, rfl, rfl⟩⟩
    · rcases hcl : candidateLoop env c (u₀ :: rest) with ⟨ores, tr⟩
      cases ores with
      | none =>
        rw [process_company_nomatch_case env sk st c (u₀ :: rest) tr h hs rfl hcl]
        refine ⟨rfl, ?_⟩
        intro upd hupd
        rw [List.mem_singleton] at hupd
        subst hupd
        exact ⟨rfl, Or.inr (Or.inl rfl), fun _ => ⟨rfl, rfl, rfl⟩⟩
      | some ur =>
        obtain ⟨u, r⟩ := ur
        rw [process_company_match_case env sk st c (u₀ :: rest) u r tr h hs rfl hcl]
        refine ⟨rfl, ?_⟩
        intro upd hupd
        rw [List.mem_singleton] at hupd
        subst hupd
        exact ⟨rfl, Or.inr (Or.inr rfl), fun hne => (hne rfl).elim⟩

theorem C9_terminal_status_updates_witness :
    (process_company ⟨fun _ _ => [], fun _ => none, false, fun _ => none, fun _ _ => 0⟩
        false initialJobState ⟨3, "0003", "acme", "tokyo", none⟩).updates.length = 1 ∧
    ∀ upd ∈ (process_company ⟨fun _ _ => [], fun _ => none, false, fun _ => none, fun _ _ => 0⟩
        false initialJobState ⟨3, "0003", "acme", "tokyo", none⟩).updates,
      upd.company_id = 3 ∧
      (upd.status = "no_candidates" ∨ upd.status = "no_match" ∨ upd.status = "matched") ∧
      (upd.status ≠ "matched" →
        upd.homepage_url = none ∧ upd.capital = none ∧ upd.industry = none) :=
  (C9_terminal_status_updates
      ⟨fun _ _ => [], fun _ => none, false, fun _ => none, fun _ _ => 0⟩
      false initialJobState ⟨3, "0003", "acme", "tokyo", none⟩).2 (by decide)

/-- C10: when the deterministic extractor reports no match for the
first viable candidate's page but the enabled LLM verifier answers
affirmatively, `_verify_candidate` promotes the candidate and the
pipeline persists status `matched` with that candidate's URL as
homepage and the capital/industry values that the deterministic regex
extraction produced for that same page. -/
theorem C10_llm_match_persists (env : PipelineEnv) (st : JobState) (c : Company)
    (sk : Bool) (pre post : List String) (u p : String)
    (hskip : (sk && truthyOpt c.homepage_url) = false)
    (hsearch : env.search c.name c.address = pre ++ u :: post)
    (hpre : ∀ v ∈ pre, isHit env c v = false)
    (hf : env.fetchPage u = some p)
    (hnm : (analyze_page env.simFn p u c.name c.address).matched = false)
    (henb : env.llmEnabled = true)
    (hllm : env.llmVerdict ⟨c.name, c.address, p⟩ = some true) :
    (process_company env sk st c).updates =
      [⟨c.id, some u,
        (analyze_page env.simFn p u c.name c.address).capital,
        (analyze_page env.simFn p u c.name c.address).industry, "matched"⟩] ∧
    (process_company env sk st c).state.successes = st.successes + 1 := by
  have hvc : verify_candidate env c p u =
      some ⟨true, some u, (analyze_page env.simFn p u c.name c.address).capital,
        (analyze_page env.simFn p u c.name c.address).industry⟩ := by
    unfold verify_candidate
    dsimp only
    rw [hnm]
    simp only [Bool.false_eq_true, if_false]
    rw [henb]
    simp only [if_true]
    rw [hllm]
  have hu : isHit env c u = true := by
    have h₁ : (verify_candidate env c p u).isSome = true := by rw [hvc]; rfl
    unfold isHit
    rw [hf]
    exact h₁
  obtain ⟨p', r', hf', hvc', hloop⟩ := candidateLoop_first_hit env c pre post u hpre hu
  have hp : p = p' := by
    rw [hf] at hf'
    exact Option.some.inj hf'
  rw [← hp] at hvc'
  rw [hvc] at hvc'
  have hr : r' = ⟨true, some u, (analyze_page env.simFn p u c.name c.address).capital,
      (analyze_page env.simFn p u c.name c.address).industry⟩ :=
    (Option.some.inj hvc').symm
  subst hr
  have hne : (pre ++ u :: post).isEmpty = false := by cases pre <;> rfl
  have hmain := process_company_match_case env sk st c (pre ++ u :: post) u _
    (pre ++ [u]) hskip hsearch hne hloop
  rw [hmain]
  exact ⟨rfl, rfl⟩

/-- Environment for the C10 witness: one candidate, extractor score 0
(no deterministic match), enabled LLM answering yes, and a page from
which the regexes extract capital `500万円` and industry `製造業`. -/
def envC10 : PipelineEnv :=
  { search := fun _ _ => ["w"]
    fetchPage := fun _ => some "資本金: 500万円 業種: 製造業"
    llmEnabled := true
    llmVerdict := fun _ => some true
    simFn := fun _ _ => 0 }

theorem C10_llm_match_persists_witness :
    (process_company envC10 false initialJobState ⟨4, "0004", "acme", "tokyo", none⟩).updates =
      [⟨4, some "w",
        (analyze_page envC10.simFn "資本金: 500万円 業種: 製造業" "w" "acme" "tokyo").capital,
        (analyze_page envC10.simFn "資本金: 500万円 業種: 製造業" "w" "acme" "tokyo").industry,
        "matched"⟩] ∧
    (process_company envC10 false initialJobState
        ⟨4, "0004", "acme", "tokyo", none⟩).state.successes =
      initialJobState.successes + 1 :=
  C10_llm_match_persists envC10 initialJobState ⟨4, "0004", "acme", "tokyo", none⟩
    false [] [] "w" "資本金: 500万円 業種: 製造業"
    (by decide) rfl (by decide) rfl (by decide) rfl rfl

/-- C3 counterexample: the backend returning a single news-site URL on
a block-listed host (`asahi.com`): `search_company` keeps it in the
output — the static host block list is only a ranking penalty in
`_score_url`, not a filter. -/
theorem C3_counterexample :
    search_company (fun _ _ => ["https://asahi.com/x"]) ⟨"duckduckgo", 10⟩
        "acme" none = Except.ok ["https://asahi.com/x"] ∧
    hostOf "https://asahi.com/x" = some "asahi.com" ∧
    "asahi.com" ∈ BLOCKLIST_HOSTS := by
  refine ⟨?_, by decide, by decide⟩
  rfl

/-- Inversion of a successful `search_company` call: its output is the
filter-and-sort stage applied to some backend result. -/
theorem search_company_ok (backend : String → Nat → List String)
    (settings : SearchSettings) (name : String) (address : Option String)
    (out : List String)
    (hok : search_company backend settings name address = Except.ok out) :
    ∃ q, out = searchFilterSort (backend q settings.search_result_limit) := by
  unfold search_company at hok
  dsimp only at hok
  split at hok
  · exact ⟨_, (Except.ok.inj hok).symm⟩
  · exact absurd hok (by simp)

/-- Membership in the filter-and-sort output implies survival of the
keyword filter. -/
theorem searchFilterSort_not_excluded (urls : List String) (u : String)
    (hu : u ∈ searchFilterSort urls) : excludedUrl u = false := by
  unfold searchFilterSort at hu
  have hperm := List.perm_insertionSort scoreRel (urls.filter fun v => !excludedUrl v)
  have hmem := hperm.mem_iff.mp hu
  have := List.of_mem_filter hmem
  simpa using this

/-- C3 (amended): the output of `search` never contains a URL whose
lower-cased form has a substring on the exclusion-keyword list; a URL
whose host matches the static block list of aggregator/news domains is
not removed, only pushed back in the ranking with penalty 10. -/
theorem C3_keyword_exclusion (backend : String → Nat → List String)
    (settings : SearchSettings) (name : String) (address : Option String)
    (out : List String)
    (hok : search_company backend settings name address = Except.ok out) :
    (∀ u ∈ out, ∀ kw ∈ EXCLUDE_KEYWORDS, containsSub (lowerS u) kw = false) ∧
    (∀ u h, hostOf u = some h → blockedHost (normHost h) = true →
      10 ≤ (score_url u).1) := by
  constructor
  · intro u hu kw hkw
    obtain ⟨q, hout⟩ := search_company_ok backend settings name address out hok
    subst hout
    have hex := searchFilterSort_not_excluded _ u hu
    unfold excludedUrl at hex
    rw [List.any_eq_false] at hex
    simpa using hex kw hkw
  · intro u h hh hb
    unfold score_url
    rw [hh]
    dsimp only
    rw [hb]
    simp only [if_true]
    omega

theorem C3_keyword_exclusion_witness :
    (∀ u ∈ ["https://ok.example/"], ∀ kw ∈ EXCLUDE_KEYWORDS,
      containsSub (lowerS u) kw = false) ∧
    (∀ u h, hostOf u = some h → blockedHost (normHost h) = true →
      10 ≤ (score_url u).1) :=
  C3_keyword_exclusion (fun _ _ => ["https://x.co.jp/detail/9", "https://ok.example/"])
    ⟨"duckduckgo", 10⟩ "acme" none ["https://ok.example/"] rfl

/-- The TLD preference penalty in the spec's wording: 0 for the
corporate country-code suffixes, 1 for the generic country suffix, 2
for the generic commercial suffix, 5 otherwise. -/
def spec_tld_penalty (host : List Char) : Nat :=
  if ["co.jp", "ne.jp", "or.jp"].any (fun s => ("." ++ s).data.isSuffixOf host) then 0
  else if ".jp".data.isSuffixOf host then 1
  else if ".com".data.isSuffixOf host then 2
  else 5

theorem scoreRel_total (a b : String) : scoreRel a b ∨ scoreRel b a := by
  unfold scoreRel scoreLe
  simp only [decide_eq_true_eq]
  omega

theorem scoreRel_trans (a b c : String) (h₁ : scoreRel a b) (h₂ : scoreRel b c) :
    scoreRel a c := by
  unfold scoreRel scoreLe at *
  simp only [decide_eq_true_eq] at *
  omega

/-- C6: the candidate list returned by `search` is sorted ascending by
the composite key `(penalty, length)` — a total, transitive preorder —
where the penalty is the block-list penalty of 10 plus the TLD
preference penalty (0 for the corporate country-code suffixes, 1 for
`.jp`, 2 for `.com`, 5 otherwise), shorter URLs breaking ties. -/
theorem C6_ranking (backend : String → Nat → List String)
    (settings : SearchSettings) (name : String) (address : Option String)
    (out : List String)
    (hok : search_company backend settings name address = Except.ok out) :
    List.Sorted scoreRel out ∧
    (∀ a b : String, scoreRel a b ∨ scoreRel b a) ∧
    (∀ a b c : String, scoreRel a b → scoreRel b c → scoreRel a c) ∧
    (∀ u h, hostOf u = some h →
      score_url u =
        ((if blockedHost (normHost h) then 10 else 0) +
          spec_tld_penalty (normHost h), u.length)) := by
  haveI : IsTotal String scoreRel := ⟨scoreRel_total⟩
  haveI : IsTrans String scoreRel := ⟨scoreRel_trans⟩
  refine ⟨?_, scoreRel_total, scoreRel_trans, ?_⟩
  · obtain ⟨q, hout⟩ := search_company_ok backend settings name address out hok
    subst hout
    exact List.sorted_insertionSort scoreRel _
  · intro u h hh
    unfold score_url spec_tld_penalty
    rw [hh]
    dsimp only
    have hany : (["co.jp", "ne.jp", "or.jp"].any
          fun s => ("." ++ s).data.isSuffixOf (normHost h)) = true ↔
        (".co.jp".data.isSuffixOf (normHost h) ∨
          ".ne.jp".data.isSuffixOf (normHost h) ∨
          ".or.jp".data.isSuffixOf (normHost h)) := by
      simp [List.any_cons]
    by_cases h₀ : (".co.jp".data.isSuffixOf (normHost h) ∨
        ".ne.jp".data.isSuffixOf (normHost h) ∨
        ".or.jp".data.isSuffixOf (normHost h))
    · rw [if_pos h₀, if_pos (hany.mpr h₀)]
    · rw [if_neg h₀, if_neg (fun hc => h₀ (hany.mp hc))]

theorem C6_ranking_witness :
    List.Sorted scoreRel ["https://b.co.jp/c", "https://x.net/aa"] ∧
    (∀ a b : String, scoreRel a b ∨ scoreRel b a) ∧
    (∀ a b c : String, scoreRel a b → scoreRel b c → scoreRel a c) ∧
    (∀ u h, hostOf u = some h →
      score_url u =
        ((if blockedHost (normHost h) then 10 else 0) +
          spec_tld_penalty (normHost h), u.length)) :=
  C6_ranking (fun _ _ => ["https://x.net/aa", "https://b.co.jp/c", "https://a.com/?q=1"])
    ⟨"duckduckgo", 10⟩ "acme" none ["https://b.co.jp/c", "https://x.net/aa"] rfl

/-! ## Idempotence analysis of `normalize_text` (C8)

The second application of `normalize_text` re-runs NFKC on the
case-folded output; idempotence therefore hinges on whether lowering
can create a canonically composable pair.  It can (`Ὰ` U+1FBA followed
by combining ypogegrammeni U+0345 lowers to `ὰ` U+1F70 U+0345, which
NFKC composes to the precomposed `ᾲ` U+1FB2), so idempotence holds
only for strings whose normalised form contains no composing combining
mark.  The lemmas below track, stage by stage, that every character of
a normalised string is fixed by the decomposition table and the kana
table, that whitespace structure and edge characters are canonical,
and that no legacy-glyph pattern occurrence remains. -/

/-- Characters appearing as the combining (second) half of a canonical
composition pair. -/
def compSeconds : List Char :=
  nfkcCompTable.map fun p => p.1.2

/-- Characters produced by the composition pass. -/
def compValues : List Char :=
  nfkcCompTable.map fun p => p.2

/-- A character untouched by both the decomposition table and the kana
table — the per-character invariant of normalised output. -/
def baseOk (c : Char) : Prop :=
  nfkcDecompChar c = [c] ∧ KANA_TABLE.lookup c = none

theorem compPair_mem {a b d : Char} (h : compPair a b = some d) :
    b ∈ compSeconds ∧ d ∈ compValues := by
  have hm : ((a, b), d) ∈ nfkcCompTable := lookup_mem h
  constructor
  · exact List.mem_map.mpr ⟨((a, b), d), hm, rfl⟩
  · exact List.mem_map.mpr ⟨((a, b), d), hm, rfl⟩

theorem composeAux_id (a : Char) (l : List Char)
    (h : ∀ c ∈ l, c ∉ compSeconds) : composeAux a l = a :: l := by
  induction l generalizing a with
  | nil => rfl
  | cons b rest ih =>
    unfold composeAux
    split
    next d hd =>
      exact absurd (compPair_mem hd).1 (h b (List.mem_cons_self b rest))
    next hd =>
      rw [ih b fun c hc => h c (List.mem_cons_of_mem _ hc)]

theorem composePass_id (l : List Char)
    (h : ∀ c ∈ l, c ∉ compSeconds) : composePass l = l := by
  cases l with
  | nil => rfl
  | cons a rest =>
    unfold composePass
    exact composeAux_id a rest fun c hc => h c (List.mem_cons_of_mem _ hc)

theorem mem_composeAux {c a : Char} {l : List Char}
    (h : c ∈ composeAux a l) : c = a ∨ c ∈ l ∨ c ∈ compValues := by
  induction l generalizing a with
  | nil =>
    unfold composeAux at h
    rw [List.mem_singleton] at h
    exact Or.inl h
  | cons b rest ih =>
    unfold composeAux at h
    revert h
    split
    next d hd =>
      intro h
      rcases ih h with h₁ | h₂ | h₃
      · exact Or.inr (Or.inr (h₁ ▸ (compPair_mem hd).2))
      · exact Or.inr (Or.inl (List.mem_cons_of_mem _ h₂))
      · exact Or.inr (Or.inr h₃)
    next hd =>
      intro h
      rcases List.mem_cons.mp h with h₁ | h₂
      · exact Or.inl h₁
      · rcases ih h₂ with h₃ | h₄ | h₅
        · exact Or.inr (Or.inl (h₃ ▸ List.mem_cons_self b rest))
        · exact Or.inr (Or.inl (List.mem_cons_of_mem _ h₄))
        · exact Or.inr (Or.inr h₅)

theorem mem_composePass {c : Char} {l : List Char}
    (h : c ∈ composePass l) : c ∈ l ∨ c ∈ compValues := by
  cases l with
  | nil => cases h
  | cons a rest =>
    unfold composePass at h
    rcases mem_composeAux h with h₁ | h₂ | h₃
    · exact Or.inl (h₁ ▸ List.mem_cons_self a rest)
    · exact Or.inl (List.mem_cons_of_mem _ h₂)
    · exact Or.inr h₃

theorem flatMap_fix (f : Char → List Char) (l : List Char)
    (h : ∀ c ∈ l, f c = [c]) : l.flatMap f = l := by
  induction l with
  | nil => rfl
  | cons c cs ih =>
    rw [List.flatMap_cons, h c (List.mem_cons_self c cs),
      ih fun d hd => h d (List.mem_cons_of_mem _ hd)]
    rfl

theorem map_fix (f : Char → Char) (l : List Char)
    (h : ∀ c ∈ l, f c = c) : l.map f = l := by
  induction l with
  | nil => rfl
  | cons c cs ih =>
    rw [List.map_cons, h c (List.mem_cons_self c cs),
      ih fun d hd => h d (List.mem_cons_of_mem _ hd)]

/-- The adjacency relation of canonical whitespace: no two neighbouring
whitespace characters. -/
def noWsPair (a b : Char) : Prop :=
  ¬(isWs a = true ∧ isWs b = true)

theorem mem_collapseAux {c : Char} {b : Bool} {l : List Char}
    (h : c ∈ collapseAux b l) : c = ' ' ∨ (c ∈ l ∧ isWs c = false) := by
  induction l generalizing b with
  | nil => cases h
  | cons d ds ih =>
    unfold collapseAux at h
    by_cases hws : isWs d = true
    · rw [if_pos hws] at h
      cases b with
      | true =>
        rw [if_pos rfl] at h
        rcases ih h with h₁ | h₂
        · exact Or.inl h₁
        · exact Or.inr ⟨List.mem_cons_of_mem _ h₂.1, h₂.2⟩
      | false =>
        rw [if_neg (by simp)] at h
        rcases List.mem_cons.mp h with h₁ | h₂
        · exact Or.inl h₁
        · rcases ih h₂ with h₃ | h₄
          · exact Or.inl h₃
          · exact Or.inr ⟨List.mem_cons_of_mem _ h₄.1, h₄.2⟩
    · rw [if_neg hws] at h
      rcases List.mem_cons.mp h with h₁ | h₂
      · exact Or.inr ⟨h₁ ▸ List.mem_cons_self d ds, h₁ ▸ (Bool.not_eq_true _).mp hws⟩
      · rcases ih h₂ with h₃ | h₄
        · exact Or.inl h₃
        · exact Or.inr ⟨List.mem_cons_of_mem _ h₄.1, h₄.2⟩

theorem collapseAux_true_head {l : List Char} {d : Char}
    (h : (collapseAux true l).head? = some d) : isWs d = false := by
  induction l with
  | nil => cases h
  | cons c cs ih =>
    unfold collapseAux at h
    by_cases hws : isWs c = true
    · rw [if_pos hws, if_pos rfl] at h
      exact ih h
    · rw [if_neg hws] at h
      rw [List.head?_cons, Option.some.injEq] at h
      exact h ▸ (Bool.not_eq_true _).mp hws

theorem collapseAux_chain (l : List Char) (b : Bool) :
    List.Chain' noWsPair (collapseAux b l) := by
  induction l generalizing b with
  | nil => exact List.chain'_nil
  | cons c cs ih =>
    unfold collapseAux
    by_cases hws : isWs c = true
    · rw [if_pos hws]
      cases b with
      | true => exact ih true
      | false =>
        rw [if_neg (by simp)]
        rw [List.chain'_cons']
        refine ⟨?_, ih true⟩
        intro d hd
        intro hpair
        exact absurd hpair.2 (by rw [collapseAux_true_head hd]; simp)
    · rw [if_neg hws]
      rw [List.chain'_cons']
      refine ⟨?_, ih false⟩
      intro d hd hpair
      exact absurd hpair.1 hws

theorem collapseAux_id : ∀ (l : List Char),
    (∀ c ∈ l, isWs c = true → c = ' ') →
    List.Chain' noWsPair l →
    ∀ b : Bool, (b = true → ∀ d ∈ l.head?, isWs d = false) →
    collapseAux b l = l := by
  intro l
  induction l with
  | nil => intros; rfl
  | cons c cs ih =>
    intro hAll hCh b hb
    unfold collapseAux
    by_cases hws : isWs c = true
    · have hc : c = ' ' := hAll c (List.mem_cons_self c cs) hws
      have hbf : b = false := by
        cases b with
        | false => rfl
        | true =>
          exact absurd hws
            (by rw [hb rfl c (by rw [List.head?_cons]; rfl)]; simp)
      subst hbf
      rw [if_pos hws, if_neg (by simp)]
      have hhead : ∀ d ∈ cs.head?, isWs d = false := by
        intro d hd
        cases cs with
        | nil => simp at hd
        | cons e es =>
          rw [List.head?_cons, Option.mem_def, Option.some.injEq] at hd
          subst hd
          have h₂ := (List.chain'_cons'.mp hCh).1 e (by rw [List.head?_cons]; rfl)
          unfold noWsPair at h₂
          by_cases hd' : isWs e = true
          · exact absurd ⟨hws, hd'⟩ h₂
          · rwa [Bool.not_eq_true] at hd'
      rw [ih (fun d hd hw => hAll d (List.mem_cons_of_mem _ hd) hw)
          (List.Chain'.tail hCh) true (fun _ => hhead), hc]
    · rw [if_neg hws]
      rw [ih (fun d hd hw => hAll d (List.mem_cons_of_mem _ hd) hw)
          (List.Chain'.tail hCh) false (by intro h; cases h)]

theorem replaceKyu_cons_of_guard (c : Char) (cs : List Char)
    (hguard : ∀ rest, c = '株' → cs = '式' :: '會' :: '社' :: rest → False) :
    replaceKyu (c :: cs) = c :: replaceKyu cs := by
  rw [replaceKyu.eq_def]
  split
  next rest heq =>
    rw [List.cons.injEq] at heq
    exact (hguard rest heq.1 heq.2).elim
  next c' cs' heq =>
    rw [List.cons.injEq] at heq
    rw [heq.1, heq.2]
  next heq => cases heq

theorem replaceKyu_head (l : List Char) :
    (replaceKyu l).head? = l.head? := by
  induction l using replaceKyu.induct with
  | case1 rest ih => rfl
  | case2 c cs hguard ih =>
    rw [replaceKyu_cons_of_guard c cs hguard]
    rfl
  | case3 => rfl

theorem mem_replaceKyu {c : Char} {l : List Char}
    (h : c ∈ replaceKyu l) : c ∈ l ∨ c ∈ kyuRepl := by
  induction l using replaceKyu.induct with
  | case1 rest ih =>
    have hred : replaceKyu ('株' :: '式' :: '會' :: '社' :: rest) =
        '株' :: '式' :: '会' :: '社' :: replaceKyu rest := rfl
    rw [hred] at h
    rcases List.mem_cons.mp h with h₁ | h
    · exact Or.inr (by rw [h₁]; decide)
    rcases List.mem_cons.mp h with h₁ | h
    · exact Or.inr (by rw [h₁]; decide)
    rcases List.mem_cons.mp h with h₁ | h
    · exact Or.inr (by rw [h₁]; decide)
    rcases List.mem_cons.mp h with h₁ | h
    · exact Or.inr (by rw [h₁]; decide)
    rcases ih h with h₁ | h₂
    · exact Or.inl (by
        refine List.mem_cons_of_mem _ (List.mem_cons_of_mem _
          (List.mem_cons_of_mem _ (List.mem_cons_of_mem _ h₁))))
    · exact Or.inr h₂
  | case2 d cs hguard ih =>
    rw [replaceKyu_cons_of_guard d cs hguard] at h
    rcases List.mem_cons.mp h with h₁ | h₂
    · exact Or.inl (h₁ ▸ List.mem_cons_self d cs)
    · rcases ih h₂ with h₃ | h₄
      · exact Or.inl (List.mem_cons_of_mem _ h₃)
      · exact Or.inr h₄
  | case3 => cases h

theorem replaceKyu_chain {l : List Char}
    (h : List.Chain' noWsPair l) : List.Chain' noWsPair (replaceKyu l) := by
  induction l using replaceKyu.induct with
  | case1 rest ih =>
    have hred : replaceKyu ('株' :: '式' :: '會' :: '社' :: rest) =
        '株' :: '式' :: '会' :: '社' :: replaceKyu rest := rfl
    rw [hred]
    have hrest : List.Chain' noWsPair (replaceKyu rest) :=
      ih (h.tail.tail.tail.tail)
    rw [List.chain'_cons']
    refine ⟨fun d _ hp => absurd hp.1 (by decide), ?_⟩
    rw [List.chain'_cons']
    refine ⟨fun d _ hp => absurd hp.1 (by decide), ?_⟩
    rw [List.chain'_cons']
    refine ⟨fun d _ hp => absurd hp.1 (by decide), ?_⟩
    rw [List.chain'_cons']
    exact ⟨fun d _ hp => absurd hp.1 (by decide), hrest⟩
  | case2 c cs hguard ih =>
    rw [replaceKyu_cons_of_guard c cs hguard]
    rw [List.chain'_cons']
    refine ⟨?_, ih h.tail⟩
    intro d hd
    rw [replaceKyu_head] at hd
    exact (List.chain'_cons'.mp h).1 d hd
  | case3 => exact List.chain'_nil

theorem replaceKyu_pre1 {l : List Char}
    (h : ['社'] <+: replaceKyu l) : ['社'] <+: l := by
  induction l using replaceKyu.induct with
  | case1 rest ih =>
    have hred : replaceKyu ('株' :: '式' :: '會' :: '社' :: rest) =
        '株' :: '式' :: '会' :: '社' :: replaceKyu rest := rfl
    rw [hred] at h
    exact absurd (List.cons_prefix_cons.mp h).1 (by decide)
  | case2 c cs hguard ih =>
    rw [replaceKyu_cons_of_guard c cs hguard] at h
    obtain ⟨hc, -⟩ := List.cons_prefix_cons.mp h
    rw [List.cons_prefix_cons]
    exact ⟨hc, List.nil_prefix⟩
  | case3 => exact absurd h.length_le (by simp [replaceKyu])

theorem replaceKyu_pre2 {l : List Char}
    (h : ['會', '社'] <+: replaceKyu l) : ['會', '社'] <+: l := by
  induction l using replaceKyu.induct with
  | case1 rest ih =>
    have hred : replaceKyu ('株' :: '式' :: '會' :: '社' :: rest) =
        '株' :: '式' :: '会' :: '社' :: replaceKyu rest := rfl
    rw [hred] at h
    exact absurd (List.cons_prefix_cons.mp h).1 (by decide)
  | case2 c cs hguard ih =>
    rw [replaceKyu_cons_of_guard c cs hguard] at h
    obtain ⟨hc, hrest⟩ := List.cons_prefix_cons.mp h
    rw [List.cons_prefix_cons]
    exact ⟨hc, replaceKyu_pre1 hrest⟩
  | case3 => exact absurd h.length_le (by simp [replaceKyu])

theorem replaceKyu_pre3 {l : List Char}
    (h : ['式', '會', '社'] <+: replaceKyu l) : ['式', '會', '社'] <+: l := by
  induction l using replaceKyu.induct with
  | case1 rest ih =>
    have hred : replaceKyu ('株' :: '式' :: '會' :: '社' :: rest) =
        '株' :: '式' :: '会' :: '社' :: replaceKyu rest := rfl
    rw [hred] at h
    exact absurd (List.cons_prefix_cons.mp h).1 (by decide)
  | case2 c cs hguard ih =>
    rw [replaceKyu_cons_of_guard c cs hguard] at h
    obtain ⟨hc, hrest⟩ := List.cons_prefix_cons.mp h
    rw [List.cons_prefix_cons]
    exact ⟨hc, replaceKyu_pre2 hrest⟩
  | case3 => exact absurd h.length_le (by simp [replaceKyu])

theorem replaceKyu_no_pat (l : List Char) : ¬ kyuPat <:+: replaceKyu l := by
  unfold kyuPat
  induction l using replaceKyu.induct with
  | case1 rest ih =>
    intro h
    have hred : replaceKyu ('株' :: '式' :: '會' :: '社' :: rest) =
        '株' :: '式' :: '会' :: '社' :: replaceKyu rest := rfl
    rw [hred] at h
    rcases List.infix_cons_iff.mp h with hp | h
    · obtain ⟨-, hp⟩ := List.cons_prefix_cons.mp hp
      obtain ⟨-, hp⟩ := List.cons_prefix_cons.mp hp
      exact absurd (List.cons_prefix_cons.mp hp).1 (by decide)
    rcases List.infix_cons_iff.mp h with hp | h
    · exact absurd (List.cons_prefix_cons.mp hp).1 (by decide)
    rcases List.infix_cons_iff.mp h with hp | h
    · exact absurd (List.cons_prefix_cons.mp hp).1 (by decide)
    rcases List.infix_cons_iff.mp h with hp | h
    · exact absurd (List.cons_prefix_cons.mp hp).1 (by decide)
    exact ih h
  | case2 c cs hguard ih =>
    intro h
    rw [replaceKyu_cons_of_guard c cs hguard] at h
    rcases List.infix_cons_iff.mp h with hp | h
    · obtain ⟨hc, hrest⟩ := List.cons_prefix_cons.mp hp
      obtain ⟨t, ht⟩ := replaceKyu_pre3 hrest
      exact hguard t hc.symm (by rw [← ht]; rfl)
    · exact ih h
  | case3 =>
    intro h
    exact absurd h.length_le (by simp [replaceKyu])

theorem replaceKyu_id (l : List Char) (h : ¬ kyuPat <:+: l) :
    replaceKyu l = l := by
  induction l using replaceKyu.induct with
  | case1 rest ih =>
    exact absurd (List.IsPrefix.isInfix ⟨rest, rfl⟩) h
  | case2 c cs hguard ih =>
    rw [replaceKyu_cons_of_guard c cs hguard,
      ih fun hin => h (List.infix_cons_iff.mpr (Or.inr hin))]
  | case3 => rfl

theorem dropWhile_head_not (p : Char → Bool) (l : List Char) :
    ∀ d ∈ (l.dropWhile p).head?, p d = false := by
  induction l with
  | nil => intro d hd; simp at hd
  | cons c cs ih =>
    intro d hd
    rw [List.dropWhile_cons] at hd
    by_cases hp : p c = true
    · rw [if_pos hp] at hd
      exact ih d hd
    · rw [if_neg hp] at hd
      rw [List.head?_cons, Option.mem_def, Option.some.injEq] at hd
      rw [← hd]
      exact Bool.eq_false_iff.mpr hp

theorem dropWhile_eq_self (p : Char → Bool) (l : List Char)
    (h : ∀ d ∈ l.head?, p d = false) : l.dropWhile p = l := by
  cases l with
  | nil => rfl
  | cons c cs =>
    rw [List.dropWhile_cons,
      if_neg (by rw [h c (by rw [List.head?_cons]; rfl)]; simp)]

theorem stripWs_prefix_dropWhile (l : List Char) :
    stripWs l <+: l.dropWhile isWs := by
  unfold stripWs
  have h₂ : (l.dropWhile isWs).reverse.dropWhile isWs <:+
      (l.dropWhile isWs).reverse := List.dropWhile_suffix isWs
  have h₃ := List.reverse_prefix.mpr h₂
  rwa [List.reverse_reverse] at h₃

theorem stripWs_sub (l : List Char) : stripWs l <:+: l :=
  (stripWs_prefix_dropWhile l).isInfix.trans (List.dropWhile_suffix isWs).isInfix

theorem stripWs_head (l : List Char) :
    ∀ d ∈ (stripWs l).head?, isWs d = false := by
  intro d hd
  unfold stripWs at hd
  rw [List.head?_reverse] at hd
  have h₂ : (l.dropWhile isWs).reverse.dropWhile isWs <:+
      (l.dropWhile isWs).reverse := List.dropWhile_suffix isWs
  obtain ⟨t, ht⟩ := h₂
  have hg : (l.dropWhile isWs).reverse.getLast? = some d := by
    rw [← ht, List.getLast?_append]
    rw [Option.mem_def] at hd
    rw [hd]
    rfl
  rw [List.getLast?_reverse] at hg
  exact dropWhile_head_not isWs l d hg

theorem stripWs_last (l : List Char) :
    ∀ d ∈ (stripWs l).getLast?, isWs d = false := by
  intro d hd
  unfold stripWs at hd
  rw [List.getLast?_reverse] at hd
  exact dropWhile_head_not isWs _ d hd

theorem stripWs_id (l : List Char)
    (hh : ∀ d ∈ l.head?, isWs d = false)
    (hl : ∀ d ∈ l.getLast?, isWs d = false) : stripWs l = l := by
  unfold stripWs
  rw [dropWhile_eq_self isWs l hh,
    dropWhile_eq_self isWs l.reverse (by rw [List.head?_reverse]; exact hl),
    List.reverse_reverse]

theorem map_eq_of_fix {f : Char → Char}
    (hf : ∀ c, f c ∈ kyuPat → f c = c) :
    ∀ (m w : List Char), m.map f = w → (∀ x ∈ w, x ∈ kyuPat) → m = w := by
  intro m
  induction m with
  | nil =>
    intro w hmw _
    rw [← hmw]
    rfl
  | cons c cs ih =>
    intro w hmw hsub
    rw [List.map_cons] at hmw
    subst hmw
    have h₁ : f c = c := hf c (hsub (f c) (List.mem_cons_self _ _))
    have h₂ : cs = cs.map f :=
      ih (cs.map f) rfl fun x hx => hsub x (List.mem_cons_of_mem _ hx)
    rw [h₁, ← h₂]

theorem map_no_pat {f : Char → Char} {l : List Char}
    (hf : ∀ c, f c ∈ kyuPat → f c = c)
    (h : kyuPat <:+: l.map f) : kyuPat <:+: l := by
  obtain ⟨s, t, hst⟩ := h
  rw [List.append_assoc] at hst
  obtain ⟨l₁, l₂₃, hl, hm₁, hm₂⟩ := List.map_eq_append_iff.mp hst.symm
  obtain ⟨l₂, l₃, hl₂, hm₃, hm₄⟩ := List.map_eq_append_iff.mp hm₂
  have h₂ : l₂ = kyuPat := map_eq_of_fix hf l₂ kyuPat hm₃ fun x hx => hx
  subst hl₂
  subst hl
  exact ⟨l₁, l₃, by rw [h₂, List.append_assoc]⟩

/-! Character-table facts, each a finite check over the tables. -/

theorem lowerTable_facts : ∀ p ∈ lowerTable,
    isWs p.1 = false ∧ isWs p.2 = false ∧
    lowerTable.lookup p.2 = none ∧ p.2 ∉ kyuPat ∧
    nfkcDecompChar p.2 = [p.2] ∧ KANA_TABLE.lookup p.2 = none := by decide

theorem nfkcDecompTable_facts : ∀ p ∈ nfkcDecompTable, ∀ d ∈ p.2,
    nfkcDecompChar d = [d] ∧ KANA_TABLE.lookup d = none := by decide

theorem kana_keys_decompose : ∀ p ∈ KANA_TABLE,
    ¬ nfkcDecompTable.lookup p.1 = none := by decide

theorem compValues_facts : ∀ p ∈ nfkcCompTable,
    nfkcDecompChar p.2 = [p.2] ∧ KANA_TABLE.lookup p.2 = none := by decide

theorem kyuRepl_facts : ∀ d ∈ kyuRepl,
    nfkcDecompChar d = [d] ∧ KANA_TABLE.lookup d = none ∧
    isWs d = false := by decide

theorem space_facts :
    nfkcDecompChar ' ' = [' '] ∧ KANA_TABLE.lookup ' ' = none ∧
    lowerTable.lookup ' ' = none := by decide

theorem decompLookup_none_kana {a : Char}
    (h : nfkcDecompTable.lookup a = none) : KANA_TABLE.lookup a = none := by
  cases hk : KANA_TABLE.lookup a with
  | none => rfl
  | some v => exact absurd h (kana_keys_decompose (a, v) (lookup_mem hk))

theorem baseOk_nfkcModel {l : List Char} : ∀ c ∈ nfkcModel l, baseOk c := by
  intro c hc
  unfold nfkcModel at hc
  rcases mem_composePass hc with h₁ | h₂
  · rcases List.mem_flatMap.mp h₁ with ⟨a, -, hca⟩
    unfold nfkcDecompChar at hca
    cases hl : nfkcDecompTable.lookup a with
    | none =>
      rw [hl] at hca
      simp only [Option.getD_none, List.mem_singleton] at hca
      subst hca
      refine ⟨?_, decompLookup_none_kana hl⟩
      unfold nfkcDecompChar
      rw [hl]
      rfl
    | some v =>
      rw [hl] at hca
      simp only [Option.getD_some] at hca
      have hfact := nfkcDecompTable_facts (a, v) (lookup_mem hl) c hca
      exact ⟨hfact.1, hfact.2⟩
  · rcases List.mem_map.mp h₂ with ⟨p, hp, hpc⟩
    have hfact := compValues_facts p hp
    exact hpc ▸ ⟨hfact.1, hfact.2⟩

theorem kanaChar_baseOk {c : Char} (h : baseOk c) : kanaChar c = c := by
  unfold kanaChar
  rw [h.2]
  rfl

theorem lowerChar_baseOk {c : Char} (h : baseOk c) : baseOk (lowerChar c) := by
  cases hl : lowerTable.lookup c with
  | none =>
    have h₁ : lowerChar c = c := by unfold lowerChar; rw [hl]; rfl
    rwa [h₁]
  | some v =>
    have h₁ : lowerChar c = v := by unfold lowerChar; rw [hl]; rfl
    have hv := lowerTable_facts (c, v) (lookup_mem hl)
    rw [h₁]
    exact ⟨hv.2.2.2.2.1, hv.2.2.2.2.2⟩

theorem lowerChar_ws (c : Char) : isWs (lowerChar c) = isWs c := by
  cases hl : lowerTable.lookup c with
  | none =>
    have h₁ : lowerChar c = c := by unfold lowerChar; rw [hl]; rfl
    rw [h₁]
  | some v =>
    have h₁ : lowerChar c = v := by unfold lowerChar; rw [hl]; rfl
    have hv := lowerTable_facts (c, v) (lookup_mem hl)
    rw [h₁, hv.2.1, hv.1]

theorem lowerChar_idem (c : Char) : lowerChar (lowerChar c) = lowerChar c := by
  cases hl : lowerTable.lookup c with
  | none =>
    have h₁ : lowerChar c = c := by unfold lowerChar; rw [hl]; rfl
    rw [h₁, h₁]
  | some v =>
    have h₁ : lowerChar c = v := by unfold lowerChar; rw [hl]; rfl
    have hv := lowerTable_facts (c, v) (lookup_mem hl)
    have h₂ : lowerChar v = v := by unfold lowerChar; rw [hv.2.2.1]; rfl
    rw [h₁, h₂]

theorem lowerChar_pat (c : Char) (h : lowerChar c ∈ kyuPat) : lowerChar c = c := by
  cases hl : lowerTable.lookup c with
  | none => unfold lowerChar; rw [hl]; rfl
  | some v =>
    have h₁ : lowerChar c = v := by unfold lowerChar; rw [hl]; rfl
    have hv := lowerTable_facts (c, v) (lookup_mem hl)
    exact absurd (h₁ ▸ h) hv.2.2.2.1

theorem baseOk_normalizeTextL (l : List Char) :
    ∀ c ∈ normalizeTextL l, baseOk c := by
  intro c hc
  unfold normalizeTextL lowerL at hc
  rcases List.mem_map.mp hc with ⟨d, hd, hdc⟩
  rw [← hdc]
  refine lowerChar_baseOk ?_
  have hd₄ := (stripWs_sub _).sublist.subset hd
  rcases mem_replaceKyu hd₄ with hd₃ | hrepl
  · unfold collapseWs at hd₃
    rcases mem_collapseAux hd₃ with hsp | ⟨hd₂, -⟩
    · rw [hsp]
      exact ⟨space_facts.1, space_facts.2.1⟩
    · unfold translateKana at hd₂
      rcases List.mem_map.mp hd₂ with ⟨e, he, hed⟩
      have hbe := baseOk_nfkcModel e he
      rw [← hed, kanaChar_baseOk hbe]
      exact hbe
  · have hfact := kyuRepl_facts d hrepl
    exact ⟨hfact.1, hfact.2.1⟩

theorem wsAll_normalizeTextL (l : List Char) :
    ∀ c ∈ normalizeTextL l, isWs c = true → c = ' ' := by
  intro c hc hw
  unfold normalizeTextL lowerL at hc
  rcases List.mem_map.mp hc with ⟨d, hd, hdc⟩
  subst hdc
  rw [lowerChar_ws] at hw
  have hd₄ := (stripWs_sub _).sublist.subset hd
  have hdsp : d = ' ' := by
    rcases mem_replaceKyu hd₄ with hd₃ | hrepl
    · unfold collapseWs at hd₃
      rcases mem_collapseAux hd₃ with hsp | ⟨-, hnws⟩
      · exact hsp
      · rw [hnws] at hw; cases hw
    · rw [(kyuRepl_facts d hrepl).2.2] at hw; cases hw
  subst hdsp
  unfold lowerChar
  rw [space_facts.2.2]
  rfl

theorem chain_normalizeTextL (l : List Char) :
    List.Chain' noWsPair (normalizeTextL l) := by
  unfold normalizeTextL lowerL
  rw [List.chain'_map]
  have h₃ : List.Chain' noWsPair (collapseWs (translateKana (nfkcModel l))) := by
    unfold collapseWs
    exact collapseAux_chain _ false
  have h₄ := replaceKyu_chain h₃
  have h₅ := h₄.infix (stripWs_sub _)
  refine h₅.imp ?_
  intro a b hab hpair
  refine hab ⟨?_, ?_⟩
  · have h := hpair.1
    rwa [lowerChar_ws] at h
  · have h := hpair.2
    rwa [lowerChar_ws] at h

theorem no_pat_normalizeTextL (l : List Char) :
    ¬ kyuPat <:+: normalizeTextL l := by
  intro h
  unfold normalizeTextL lowerL at h
  have h₅ := map_no_pat lowerChar_pat h
  have h₄ := h₅.trans (stripWs_sub _)
  exact replaceKyu_no_pat _ h₄

theorem noEdge_normalizeTextL (l : List Char) :
    (∀ d ∈ (normalizeTextL l).head?, isWs d = false) ∧
    (∀ d ∈ (normalizeTextL l).getLast?, isWs d = false) := by
  unfold normalizeTextL lowerL
  constructor
  · intro d hd
    rw [List.head?_map, Option.mem_def, Option.map_eq_some'] at hd
    obtain ⟨e, he, hed⟩ := hd
    rw [← hed, lowerChar_ws]
    exact stripWs_head _ e he
  · intro d hd
    rw [List.getLast?_map, Option.mem_def, Option.map_eq_some'] at hd
    obtain ⟨e, he, hed⟩ := hd
    rw [← hed, lowerChar_ws]
    exact stripWs_last _ e he

theorem lower_fixed_normalizeTextL (l : List Char) :
    ∀ c ∈ normalizeTextL l, lowerChar c = c := by
  intro c hc
  unfold normalizeTextL lowerL at hc
  rcases List.mem_map.mp hc with ⟨d, -, hdc⟩
  rw [← hdc]
  exact lowerChar_idem d

/-- A string all of whose characters are canonical — as produced by
`normalize_text` — is a fixed point of `normalize_text`, provided no
character is a composing combining mark. -/
theorem normalizeTextL_fix (y : List Char)
    (hbase : ∀ c ∈ y, baseOk c)
    (hws : ∀ c ∈ y, isWs c = true → c = ' ')
    (hch : List.Chain' noWsPair y)
    (hpat : ¬ kyuPat <:+: y)
    (hh : ∀ d ∈ y.head?, isWs d = false)
    (hl : ∀ d ∈ y.getLast?, isWs d = false)
    (hlow : ∀ c ∈ y, lowerChar c = c)
    (hcomp : ∀ c ∈ y, c ∉ compSeconds) :
    normalizeTextL y = y := by
  unfold normalizeTextL
  have h₁ : nfkcModel y = y := by
    unfold nfkcModel
    rw [flatMap_fix _ y fun c hc => (hbase c hc).1, composePass_id y hcomp]
  rw [h₁]
  have h₂ : translateKana y = y := by
    unfold translateKana
    exact map_fix _ y fun c hc => kanaChar_baseOk (hbase c hc)
  rw [h₂]
  have h₃ : collapseWs y = y := by
    unfold collapseWs
    exact collapseAux_id y hws hch false (by intro h; cases h)
  rw [h₃, replaceKyu_id y hpat, stripWs_id y hh hl]
  unfold lowerL
  exact map_fix _ y hlow

/-- C8 counterexample: the two-character string `Ὰ` (U+1FBA, Greek
capital alpha with varia) followed by the combining ypogegrammeni
U+0345 is NFKC-stable, but lowering U+1FBA yields U+1F70, and
U+1F70 U+0345 canonically composes to the precomposed U+1FB2 on the
second NFKC pass — so `normalize_text` is not idempotent. -/
theorem C8_counterexample :
    normalize_text (normalize_text "Ὰͅ") ≠ normalize_text "Ὰͅ" := by
  decide

/-- C8 (amended): `normalize_text` is idempotent on every string whose
normalised form contains no composing combining mark (the second half
of a canonical composition pair) — in particular on all ASCII, kana
and CJK text; full idempotence fails because case folding can create a
canonically composable pair, as in the U+1FBA U+0345 counterexample. -/
theorem C8_idempotent_on_composition_free (s : String)
    (hy : ∀ c ∈ (normalize_text s).data, c ∉ compSeconds) :
    normalize_text (normalize_text s) = normalize_text s := by
  show (⟨normalizeTextL (normalizeTextL s.data)⟩ : String) = ⟨normalizeTextL s.data⟩
  exact congrArg String.mk
    (normalizeTextL_fix (normalizeTextL s.data)
      (baseOk_normalizeTextL s.data)
      (wsAll_normalizeTextL s.data)
      (chain_normalizeTextL s.data)
      (no_pat_normalizeTextL s.data)
      (noEdge_normalizeTextL s.data).1
      (noEdge_normalizeTextL s.data).2
      (lower_fixed_normalizeTextL s.data)
      hy)

theorem C8_idempotent_on_composition_free_witness :
    (∀ c ∈ (normalize_text "  AbC ｱ株式會社　ﾃｽﾄ ").data, c ∉ compSeconds) ∧
    normalize_text (normalize_text "  AbC ｱ株式會社　ﾃｽﾄ ") =
      normalize_text "  AbC ｱ株式會社　ﾃｽﾄ " :=
  ⟨by decide, C8_idempotent_on_composition_free "  AbC ｱ株式會社　ﾃｽﾄ " (by decide)⟩

end URLshutoku
